import Mathlib

/-!
# Verification of the PinsrSkills editor-skill patch engine

Shallow embedding of `editor-skill/run.js`: the unified-diff parser,
hunk applier, JSON-Patch (RFC 6902 subset) engine, the path sandbox /
allow-list checks, and the `applyPatch` orchestrator, together with
theorems settling the specification claims.

Modelling conventions:
* JS strings are `List Char` (named `Str`); `split('\n')`, `join('\n')`,
  `startsWith`, `substring` are modelled directly on character lists.
* The filesystem is an explicit value threaded through the handlers:
  an association list of canonical paths to contents plus a directory set.
  Canonical paths are segment lists; symlinks are not modelled, so
  `fs.realpathSync` is the identity on the model.
* JS numbers used as indices/counters are `Nat`/`Int`; `Array.splice`
  is modelled with JS clamping semantics (`jsSplice`).
-/

set_option maxHeartbeats 1000000

namespace PinsrEditor

/-- JS strings, modelled as lists of characters. -/
abbrev Str := List Char

/-- Model of JS `String.prototype.startsWith(pat)`. -/
def strStartsWith : Str → Str → Bool
  | [], _ => true
  | _ :: _, [] => false
  | a :: p, b :: s => a == b && strStartsWith p s

/-- Model of JS `String.prototype.trim()` (whitespace stripped from both ends). -/
def strTrim (s : Str) : Str :=
  (s.dropWhile Char.isWhitespace).reverse.dropWhile Char.isWhitespace |>.reverse

/-- Model of JS `content.split('\n')`.  Note `"".split('\n') = [""]`.
A leading newline contributes an empty piece; any other character is
prepended to the first piece of the split of the remainder. -/
def splitNl : Str → List Str
  | [] => [[]]
  | c :: rest =>
    if c = '\n' then [] :: splitNl rest
    else List.modifyHead (c :: ·) (splitNl rest)

/-- Model of JS `lines.join('\n')`.  Note `[].join('\n') = ""`. -/
def joinNl : List Str → Str
  | [] => []
  | [l] => l
  | l :: ls => l ++ '\n' :: joinNl ls

/-- Model of JS `Array.prototype.splice(start, deleteCount, ...items)`
(the mutated array): negative starts count from the end, both the start
and the delete count clamp to the array bounds. -/
def jsSplice (l : List α) (start : Int) (deleteCount : Nat) (items : List α) :
    List α :=
  let len := l.length
  let s : Nat := if start < 0 then ((len : Int) + start).toNat else min start.toNat len
  let d : Nat := min deleteCount (len - s)
  l.take s ++ items ++ l.drop (s + d)

/-! ## Unified diff data model and hunk applier (`applyUnifiedPatch`) -/

/-- A parsed hunk: header numbers from
`@@ -oldStart,oldLines +newStart,newLines @@` plus the raw body lines
(each still carrying its `+`/`-`/space marker character). -/
structure Hunk where
  oldStart : Nat
  oldLines : Nat
  newStart : Nat
  newLines : Nat
  lines : List Str
deriving DecidableEq

/-- A per-file patch of a multi-file unified diff.  `oldFile` is set when
the `--- ` header is seen; `newFile` stays `none` until the `+++ ` header
arrives (JS `null`). -/
structure PatchData where
  oldFile : Str
  newFile : Option Str
  hunks : List Hunk
deriving DecidableEq

/-- Deletion lines of a hunk body, marker stripped (`line.substring(1)`). -/
def hunkRemovals (lines : List Str) : List Str :=
  (lines.filter (fun l => strStartsWith ['-'] l)).map (List.drop 1)

/-- Addition lines of a hunk body, marker stripped. -/
def hunkAdditions (lines : List Str) : List Str :=
  (lines.filter (fun l => strStartsWith ['+'] l)).map (List.drop 1)

/-- Loop state of `applyUnifiedPatch`: current line array, running offset
(cumulative insertions minus removals of the hunks already applied), and
the cumulative added/removed counters. -/
structure ApplyState where
  lines : List Str
  offset : Int
  linesAdded : Nat
  linesRemoved : Nat
deriving DecidableEq

/-- One iteration of the `for (const hunk of patchData.hunks)` loop:
splice at `hunk.oldStart - 1 + offset`, removing the deletion set and
inserting the addition set, then advance the offset. -/
def applyHunkStep (st : ApplyState) (h : Hunk) : ApplyState :=
  let startIndex : Int := (h.oldStart : Int) - 1 + st.offset
  let removals := hunkRemovals h.lines
  let additions := hunkAdditions h.lines
  { lines := jsSplice st.lines startIndex removals.length additions
    offset := st.offset + (additions.length : Int) - (removals.length : Int)
    linesAdded := st.linesAdded + additions.length
    linesRemoved := st.linesRemoved + removals.length }

/-- Result record of `applyUnifiedPatch`. -/
structure ApplyResult where
  content : Str
  linesAdded : Nat
  linesRemoved : Nat
deriving DecidableEq

/-- Model of `applyUnifiedPatch(originalContent, patchData)`: split the
content on newlines, apply every hunk in header order with offset
tracking, and re-join. -/
def applyUnifiedPatch (originalContent : Str) (patchData : PatchData) :
    ApplyResult :=
  let final := patchData.hunks.foldl applyHunkStep ⟨splitNl originalContent, 0, 0, 0⟩
  ⟨joinNl final.lines, final.linesAdded, final.linesRemoved⟩

/-! ## Unified diff parser (`parseUnifiedDiff`) -/

/-- `(s.takeWhile isDigit, s.dropWhile isDigit)`. -/
def spanDigits (s : Str) : Str × Str :=
  (s.takeWhile Char.isDigit, s.dropWhile Char.isDigit)

/-- `parseInt` on a nonempty decimal digit string. -/
def digitsToNat (ds : Str) : Nat :=
  ds.foldl (fun n c => n * 10 + (c.toNat - 48)) 0

/-- Strip a literal marker from the front of a string, or fail. -/
def dropLit : Str → Str → Option Str
  | [], s => some s
  | _ :: _, [] => none
  | c :: p, b :: s => if c = b then dropLit p s else none

/-- Model of the hunk-header regex
`^@@ -(\d+)(?:,(\d+))? \+(\d+)(?:,(\d+))? @@` with the source's defaults:
omitted counts are 1; characters after the closing `@@` are ignored. -/
def matchHunkHeader (line : Str) : Option (Nat × Nat × Nat × Nat) := do
  let r1 ← dropLit ("@@ -".data) line
  let (d1, r2) := spanDigits r1
  if d1 = [] then none else
  let (oldLines, r3) :=
    match r2 with
    | ',' :: r =>
      let (d2, r') := spanDigits r
      if d2 = [] then (1, r2) else (digitsToNat d2, r')
    | _ => (1, r2)
  let r4 ← dropLit (" +".data) r3
  let (d3, r5) := spanDigits r4
  if d3 = [] then none else
  let (newLines, r6) :=
    match r5 with
    | ',' :: r =>
      let (d4, r') := spanDigits r
      if d4 = [] then (1, r5) else (digitsToNat d4, r')
    | _ => (1, r5)
  let _ ← dropLit (" @@".data) r6
  some (digitsToNat d1, oldLines, digitsToNat d3, newLines)

/-- `line.substring(4).replace(/^[ab]\//, '')` (the replace step). -/
def stripAB (s : Str) : Str :=
  match s with
  | 'a' :: '/' :: r => r
  | 'b' :: '/' :: r => r
  | _ => s

/-- Path extraction of the `--- `/`+++ ` header lines:
`line.substring(4).replace(/^[ab]\//, '').trim()`. -/
def parseHeaderPath (line : Str) : Str :=
  strTrim (stripAB (line.drop 4))

/-- Update position `i` of a list in place (no-op when out of range),
modelling in-place mutation of an element of a JS array. -/
def modifyIdx (l : List α) (i : Nat) (f : α → α) : List α :=
  match l[i]? with
  | none => l
  | some a => l.set i (f a)

/-- Parser state of `parseUnifiedDiff`, with JS object aliasing made
explicit: `store` holds every patch object ever created, `current` and
`hunkRef` are references into it (`hunkRef` is a patch index paired with
a hunk index inside that patch), and `out` records the store indices
pushed onto the output array.  A patch object can be pushed twice, and a
hunk body line or a new hunk mutates the referenced object even when it
is already in the output — exactly as in the JS. -/
structure ParseState where
  store : List PatchData
  out : List Nat
  current : Option Nat
  hunkRef : Option (Nat × Nat)
deriving DecidableEq

/-- A hunk body line: starts with `+`, `-`, a space, or is empty. -/
def lineQualifies (line : Str) : Bool :=
  strStartsWith ['+'] line || strStartsWith ['-'] line ||
    strStartsWith [' '] line || line == []

/-- One line of the `parseUnifiedDiff` scan. -/
def parseStep (st : ParseState) (line : Str) : ParseState :=
  if strStartsWith ("--- ".data) line then
    { st with
      store := st.store ++ [⟨parseHeaderPath line, none, []⟩]
      current := some st.store.length }
  else if strStartsWith ("+++ ".data) line && st.current.isSome then
    match st.current with
    | none => st
    | some i =>
      { st with
        store := modifyIdx st.store i
          (fun p => { p with newFile := some (parseHeaderPath line) })
        out := st.out ++ [i] }
  else
    match matchHunkHeader line, st.current with
    | some (a, b, c2, d), some i =>
      let hcount := (st.store.getD i ⟨[], none, []⟩).hunks.length
      { st with
        store := modifyIdx st.store i
          (fun p => { p with hunks := p.hunks ++ [⟨a, b, c2, d, []⟩] })
        hunkRef := some (i, hcount) }
    | _, _ =>
      match st.hunkRef with
      | some (i, j) =>
        if lineQualifies line then
          { st with
            store := modifyIdx st.store i (fun p =>
              let hunks' := modifyIdx p.hunks j
                (fun h => { h with lines := h.lines ++ [line] })
              { p with hunks := hunks' }) }
        else st
      | none => st

/-- Model of `parseUnifiedDiff(patchStr)`: scan the lines, then read the
pushed patch objects out of the store. -/
def parseUnifiedDiff (patchStr : Str) : List PatchData :=
  let final := (splitNl patchStr).foldl parseStep ⟨[], [], none, none⟩
  final.out.map (fun i => final.store.getD i ⟨[], none, []⟩)

/-! ## Path model, sandbox and allow-list -/

/-- A canonical absolute path, as its list of segments. -/
abbrev CPath := List Str

/-- A requested path string, decomposed: POSIX absoluteness flag plus the
raw segments, which may still contain `.` and `..`. -/
structure RawPath where
  absolute : Bool
  segs : List Str
deriving DecidableEq

/-- `split('/')` (used to decompose a raw path string into segments). -/
def splitSlash : Str → List Str
  | [] => [[]]
  | c :: rest =>
    if c = '/' then [] :: splitSlash rest
    else List.modifyHead (c :: ·) (splitSlash rest)

/-- Decompose a POSIX path string. -/
def strToPath (s : Str) : RawPath :=
  { absolute := strStartsWith ['/'] s
    segs := (splitSlash s).filter (fun seg => seg ≠ []) }

/-- `path.resolve` segment normalization: `.` vanishes, `..` pops the
previous segment, clamping at the root. -/
def normSegs (segs : List Str) : List Str :=
  segs.foldl (fun acc s =>
    if s = ".".data then acc
    else if s = "..".data then acc.dropLast
    else acc ++ [s]) []

/-- Model of `path.resolve(root, p)` for a canonical `root`. -/
def pathResolve (root : CPath) (p : RawPath) : CPath :=
  if p.absolute then normSegs p.segs else normSegs (root ++ p.segs)

/-- Model of `resolveSafePath(relativePath, workspaceRoot)`; `none` is a
denial.  Mirrors the JS check
`resolved.startsWith(normalizedRoot + path.sep) || resolved === normalizedRoot`
at segment level (for the root `/` itself, `normalizedRoot + path.sep`
is `//`, which no resolved path starts with — hence the extra emptiness
guard). -/
def resolveSafePath (p : RawPath) (workspaceRoot : CPath) : Option CPath :=
  let normalizedRoot := normSegs workspaceRoot
  let resolved := pathResolve normalizedRoot p
  if resolved == normalizedRoot ||
      (!normalizedRoot.isEmpty && normalizedRoot.isPrefixOf resolved) then
    some resolved
  else none

/-! ## Filesystem model -/

/-- Abstract filesystem: file contents by canonical path, plus the set of
directories.  Symlinks are not modelled, so `fs.realpathSync` is the
identity here. -/
structure FS where
  files : List (CPath × Str)
  dirs : List CPath
deriving DecidableEq

def FS.readFile (fs : FS) (p : CPath) : Option Str :=
  (fs.files.find? (fun e => e.1 == p)).map Prod.snd

def FS.isFile (fs : FS) (p : CPath) : Bool :=
  (fs.files.find? (fun e => e.1 == p)).isSome

def FS.isDir (fs : FS) (p : CPath) : Bool :=
  fs.dirs.contains p

def FS.existsSync (fs : FS) (p : CPath) : Bool :=
  fs.isFile p || fs.isDir p

/-- `ensureDirSync(dir)` (recursive `mkdirSync`): every nonempty prefix
of the directory path exists afterwards. -/
def FS.ensureDir (fs : FS) (d : CPath) : FS :=
  { fs with dirs := fs.dirs ++
      (((List.range d.length).map (fun n => d.take (n + 1))).filter
        (fun q => !fs.dirs.contains q)) }

/-- Insert-or-update on the file association list. -/
def setAssoc (l : List (CPath × Str)) (p : CPath) (c : Str) :
    List (CPath × Str) :=
  if l.any (fun e => e.1 == p) then
    l.map (fun e => if e.1 == p then (p, c) else e)
  else l ++ [(p, c)]

/-- `fs.writeFileSync(p, c)`. -/
def FS.writeFile (fs : FS) (p : CPath) (c : Str) : FS :=
  { fs with files := setAssoc fs.files p c }

/-- Model of `isTargetAllowedByList(targetResolved, allowedList, root)`:
an empty list allows everything; a directory entry grants itself and its
subtree; any other entry (file or nonexistent path) requires exact
equality. -/
def isTargetAllowedByList (targetResolved : CPath) (allowedList : List CPath)
    (fs : FS) : Bool :=
  if allowedList.isEmpty then true
  else allowedList.any (fun a =>
    if fs.existsSync a && fs.isDir a then
      targetResolved == a || (!a.isEmpty && a.isPrefixOf targetResolved)
    else targetResolved == a)

/-- The per-target path policy shared by the handlers (the block repeated
in `handleGitDiff`, `handleJsonPatch` and `handleOpenFile`): absolute
requests are canonicalized (`realpathSync` is the identity in the model)
and checked against the allow-list only; relative requests go through
`resolveSafePath` and then the allow-list.  `Except.error` carries the
error message the handler responds with. -/
def resolvePatchTarget (filePath : Str) (workspaceRoot : CPath)
    (allowed : List CPath) (fs : FS) : Except String CPath :=
  let p := strToPath filePath
  if p.absolute then
    let resolved := normSegs p.segs
    if !allowed.isEmpty && !isTargetAllowedByList resolved allowed fs then
      Except.error ("Access denied by allowedPaths policy: " ++ String.mk filePath)
    else Except.ok resolved
  else
    match resolveSafePath p workspaceRoot with
    | none =>
      Except.error ("Path traversal denied: " ++ String.mk filePath)
    | some resolved =>
      if !allowed.isEmpty && !isTargetAllowedByList resolved allowed fs then
        Except.error ("Access denied by allowedPaths policy: " ++ String.mk filePath)
      else Except.ok resolved

/-! ## `handleGitDiff` -/

/-- The aggregate summary of a git-diff request. -/
structure GdSummary where
  filesChanged : List Str
  totalHunks : Nat
  totalLinesAdded : Nat
  totalLinesRemoved : Nat
deriving DecidableEq

/-- A per-file entry of the response (`dry-run` entries carry no counts,
as in the source). -/
structure FileResult where
  file : Str
  status : String
  linesAdded : Option Nat
  linesRemoved : Option Nat
deriving DecidableEq

/-- Response of `handleGitDiff`. -/
inductive GdResp
  | ok (applied : Bool) (summary : GdSummary) (files : List FileResult)
  | err (msg : String)
deriving DecidableEq

/-- `patchData.newFile || patchData.oldFile` (JS falsy: `null` or `""`). -/
def effFilePath (p : PatchData) : Str :=
  match p.newFile with
  | some s => if s = [] then p.oldFile else s
  | none => p.oldFile

/-- Dry-run counting: `+` lines per hunk body. -/
def countPlus (hunks : List Hunk) : Nat :=
  (hunks.map (fun h => (h.lines.filter (fun l => strStartsWith ['+'] l)).length)).sum

/-- Dry-run counting: `-` lines per hunk body. -/
def countMinus (hunks : List Hunk) : Nat :=
  (hunks.map (fun h => (h.lines.filter (fun l => strStartsWith ['-'] l)).length)).sum

/-- New-file creation content: every addition line across all hunks,
markers stripped, joined with newlines. -/
def newFileContent (hunks : List Hunk) : Str :=
  joinNl ((hunks.map (fun h =>
    (h.lines.filter (fun l => strStartsWith ['+'] l)).map (List.drop 1))).flatten)

/-- The `handleGitDiff` per-patch loop.  The left summand aborts the
request with an error message; either way the filesystem as mutated so
far is returned (a denial does not roll back earlier writes).  In the
source `loadAllowedPathsConfig` is re-read every iteration but yields the
same list, modelled by the constant `allowed`. -/
def gitDiffLoop (workspaceRoot : CPath) (allowed : List CPath)
    (confirm : Bool) :
    List PatchData → GdSummary → List FileResult → FS →
    (String ⊕ (GdSummary × List FileResult)) × FS
  | [], summary, fileResults, fs => (Sum.inr (summary, fileResults), fs)
  | patchData :: rest, summary, fileResults, fs =>
    let filePath := effFilePath patchData
    if filePath = [] then
      gitDiffLoop workspaceRoot allowed confirm rest summary fileResults fs
    else
      match resolvePatchTarget filePath workspaceRoot allowed fs with
      | Except.error msg => (Sum.inl msg, fs)
      | Except.ok resolved =>
        let summary1 := { summary with
          filesChanged := summary.filesChanged ++ [filePath]
          totalHunks := summary.totalHunks + patchData.hunks.length }
        if confirm then
          if !fs.existsSync resolved then
            let newContent := newFileContent patchData.hunks
            let fs1 := (fs.ensureDir resolved.dropLast).writeFile resolved newContent
            let linesAdded := (splitNl newContent).length
            gitDiffLoop workspaceRoot allowed confirm rest
              { summary1 with
                totalLinesAdded := summary1.totalLinesAdded + linesAdded }
              (fileResults ++ [⟨filePath, "created", some linesAdded, some 0⟩]) fs1
          else
            match fs.readFile resolved with
            | none =>
              -- `readFileSync` on a directory throws; the outer catch turns
              -- it into a failure response, keeping earlier writes.
              (Sum.inl "applyPatch failed: EISDIR", fs)
            | some originalContent =>
              let result := applyUnifiedPatch originalContent patchData
              let fs1 := fs.writeFile resolved result.content
              gitDiffLoop workspaceRoot allowed confirm rest
                { summary1 with
                  totalLinesAdded := summary1.totalLinesAdded + result.linesAdded
                  totalLinesRemoved := summary1.totalLinesRemoved + result.linesRemoved }
                (fileResults ++
                  [⟨filePath, "modified", some result.linesAdded, some result.linesRemoved⟩]) fs1
        else
          gitDiffLoop workspaceRoot allowed confirm rest
            { summary1 with
              totalLinesAdded := summary1.totalLinesAdded + countPlus patchData.hunks
              totalLinesRemoved := summary1.totalLinesRemoved + countMinus patchData.hunks }
            (fileResults ++ [⟨filePath, "dry-run", none, none⟩]) fs

/-- Model of `handleGitDiff(patchStr, workspaceRoot, agentId, confirm)`.
Logging is out of scope; the allow-list is the (constant) result of
`loadAllowedPathsConfig`. -/
def handleGitDiff (patchStr : Str) (workspaceRoot : CPath)
    (allowed : List CPath) (confirm : Bool) (fs : FS) : GdResp × FS :=
  let patches := parseUnifiedDiff patchStr
  if patches.length = 0 then
    (GdResp.err "No patches found in the provided diff", fs)
  else
    match gitDiffLoop workspaceRoot allowed confirm patches ⟨[], 0, 0, 0⟩ [] fs with
    | (Sum.inl msg, fs') => (GdResp.err msg, fs')
    | (Sum.inr (summary, fileResults), fs') =>
      (GdResp.ok confirm summary fileResults, fs')

/-! ## JSON document model (`applyJsonPatch` and friends) -/

/-- A JS value as far as the JSON-Patch engine sees one: the JSON values
plus `undefined` (never produced by `JSON.parse`, but readable from a
missing property and storable by an operation without a `value`). -/
inductive JVal
  | null
  | undef
  | boolV (b : Bool)
  | num (n : Int)
  | str (s : String)
  | arr (elems : List JVal)
  | obj (fields : List (String × JVal))

mutual
def beqV : JVal → JVal → Bool
  | .null, .null => true
  | .undef, .undef => true
  | .boolV a, .boolV b => a == b
  | .num a, .num b => a == b
  | .str a, .str b => a == b
  | .arr a, .arr b => beqL a b
  | .obj a, .obj b => beqF a b
  | _, _ => false
def beqL : List JVal → List JVal → Bool
  | [], [] => true
  | x :: xs, y :: ys => beqV x y && beqL xs ys
  | _, _ => false
def beqF : List (String × JVal) → List (String × JVal) → Bool
  | [], [] => true
  | (k1, v1) :: r1, (k2, v2) :: r2 => k1 == k2 && beqV v1 v2 && beqF r1 r2
  | _, _ => false
end


/-- Own-field lookup on a JS object. -/
def lookupField (fields : List (String × JVal)) (k : String) : Option JVal :=
  (fields.find? (fun e => e.1 == k)).map Prod.snd

/-- `current[k] = v` on an object: replace the (unique) existing entry in
place, or append a new key (JS objects keep insertion order and cannot
hold duplicate keys, so replacing the first match is exact). -/
def updateField : List (String × JVal) → String → JVal → List (String × JVal)
  | [], k, v => [(k, v)]
  | e :: rest, k, v =>
    if e.1 == k then (k, v) :: rest else e :: updateField rest k v

/-- `delete current[k]` on an object. -/
def eraseField (fields : List (String × JVal)) (k : String) :
    List (String × JVal) :=
  fields.filter (fun e => !(e.1 == k))

/-- Canonical array-index property names (`"0"`, `"17"`, no leading
zeros): the keys for which `k in arr` and `arr[k]` address elements. -/
def canonicalIndex (s : String) : Option Nat :=
  match s.data with
  | [] => none
  | ['0'] => some 0
  | c :: rest =>
    if c ≠ '0' && (c :: rest).all Char.isDigit then
      some (digitsToNat (c :: rest))
    else none

/-- JS `parseInt(s, 10)`: optional leading whitespace and sign, then a
nonempty digit prefix; `none` models `NaN`. -/
def parseIntJS (s : String) : Option Int :=
  match s.data.dropWhile Char.isWhitespace with
  | '-' :: rest =>
    let ds := rest.takeWhile Char.isDigit
    if ds = [] then none else some (-(digitsToNat ds : Int))
  | '+' :: rest =>
    let ds := rest.takeWhile Char.isDigit
    if ds = [] then none else some ((digitsToNat ds : Int))
  | t =>
    let ds := t.takeWhile Char.isDigit
    if ds = [] then none else some ((digitsToNat ds : Int))

/-- JS falsiness of a document value (`!current`). -/
def isFalsy : JVal → Bool
  | .null => true
  | .undef => true
  | .boolV b => !b
  | .num n => n == 0
  | .str s => s == ""
  | .arr _ => false
  | .obj _ => false

/-- Property read `current[k]`: `none` models the TypeError of reading a
property of `null`/`undefined`; a missing property reads as `undefined`.
String primitives expose their index properties (`"abc"[1]`); their other
properties (`length` etc.) are outside the model and read as `undefined`. -/
def readProp : JVal → String → Option JVal
  | .null, _ => none
  | .undef, _ => none
  | .obj fields, k => some ((lookupField fields k).getD .undef)
  | .arr a, k =>
    some (match canonicalIndex k with
          | some i => (a.getD i .undef)
          | none => .undef)
  | .boolV _, _ => some .undef
  | .num _, _ => some .undef
  | .str s, k =>
    some (match canonicalIndex k with
          | some i =>
            match s.data[i]? with
            | some c => .str (String.mk [c])
            | none => .undef
          | none => .undef)

/-- `current[lastKey] = value` (or the `-` array append) at the final
container of `setNestedValue`.  `none` models a strict-mode TypeError
(assignment on a primitive or on `null`/`undefined`); array writes past
the append position and non-index array keys create sparse arrays or
non-index properties and are outside the model (`none` as well). -/
def assignKey (cur : JVal) (k : String) (v : JVal) : Option JVal :=
  match cur with
  | .obj fields => some (.obj (updateField fields k v))
  | .arr a =>
    if k == "-" then some (.arr (a ++ [v]))
    else
      match canonicalIndex k with
      | some i =>
        if i < a.length then some (.arr (a.set i v))
        else if i = a.length then some (.arr (a ++ [v]))
        else none
      | none => none
  | _ => none

/-- Model of `setNestedValue(obj, segments, value)`: walk all but the
last segment, creating `{}` for a missing object key
(`if (!(key in current)) current[key] = {}`), then assign at the last
segment.  An empty segment list assigns at key `"undefined"`, as the JS
does (`segments[-1]` is `undefined`, stringified as a property key). -/
def setNestedValue (cur : JVal) (segments : List String) (v : JVal) :
    Option JVal :=
  match segments with
  | [] => assignKey cur "undefined" v
  | [k] => assignKey cur k v
  | k :: rest =>
    match cur with
    | .obj fields =>
      -- own fields only: prototype-chain hits of `in` are outside the model
      let child := (lookupField fields k).getD (.obj [])
      match setNestedValue child rest v with
      | none => none
      | some child' => some (.obj (updateField fields k child'))
    | .arr a =>
      match canonicalIndex k with
      | some i =>
        if h : i < a.length then
          match setNestedValue (a.get ⟨i, h⟩) rest v with
          | none => none
          | some child' => some (.arr (a.set i child'))
        else if i = a.length then
          -- `i in a` is false, so `a[i] = {}` appends, then descend
          match setNestedValue (.obj []) rest v with
          | none => none
          | some child' => some (.arr (a ++ [child']))
        else none
      | none => none
    | _ => none

/-- `delete current[lastKey]` / `current.splice(parseInt(lastKey), 1)` at
the final container of `removeNestedValue`.  On an array, a `NaN` parse
splices at 0 and a negative index counts from the end (JS `splice`
coercion); deleting from a primitive is a no-op, except string index
properties, whose strict-mode `delete` throws (`none`). -/
def deleteKey (cur : JVal) (k : String) : Option JVal :=
  match cur with
  | .arr a => some (.arr (jsSplice a ((parseIntJS k).getD 0) 1 []))
  | .obj fields => some (.obj (eraseField fields k))
  | .null => none
  | .undef => none
  | .str s =>
    match canonicalIndex k with
    | some i => if i < s.length then none else some cur
    | none => some cur
  | _ => some cur

/-- Rebuild a container around an in-place-mutated child (`current` was
`parent[k]` and was mutated).  Primitives cannot hold the mutation. -/
def writeBack (cur : JVal) (k : String) (child' : JVal) : JVal :=
  match cur with
  | .obj fields => .obj (updateField fields k child')
  | .arr a =>
    match canonicalIndex k with
    | some i => .arr (a.set i child')
    | none => cur
  | _ => cur

/-- Model of `removeNestedValue(obj, segments)`: walk all but the last
segment, returning the document unchanged as soon as `current` becomes
falsy (`if (!current) return`), then delete at the last segment.  `none`
models a thrown TypeError. -/
def removeNestedValue (cur : JVal) (segments : List String) : Option JVal :=
  match segments with
  | [] => deleteKey cur "undefined"
  | [k] => deleteKey cur k
  | k :: rest =>
    match readProp cur k with
    | none => none
    | some child =>
      if isFalsy child then some cur
      else
        match removeNestedValue child rest with
        | none => none
        | some child' => some (writeBack cur k child')

/-- One operation of the structured-patch wire format. -/
structure JsonOp where
  op : String
  path : String
  value : JVal

/-- `jsonPath.split('/').filter(Boolean)`. -/
def splitSegments (p : String) : List String :=
  ((splitSlash p.data).filter (fun s => s ≠ [])).map String.mk

/-- The operation loop of `applyJsonPatch`, on the parsed document. -/
def applyOpsToDoc (data : JVal) : List JsonOp → Option JVal
  | [] => some data
  | op :: rest =>
    let segments := splitSegments op.path
    if op.op == "add" || op.op == "replace" then
      match setNestedValue data segments op.value with
      | none => none
      | some d => applyOpsToDoc d rest
    else if op.op == "remove" then
      match removeNestedValue data segments with
      | none => none
      | some d => applyOpsToDoc d rest
    else none

/-- Read-only navigation through containers: every step must hit a
present object key or an in-range canonical array index. -/
def walk : JVal → List String → Option JVal
  | v, [] => some v
  | .obj fields, k :: rest =>
    match lookupField fields k with
    | some child => walk child rest
    | none => none
  | .arr a, k :: rest =>
    match canonicalIndex k with
    | some i =>
      match a[i]? with
      | some child => walk child rest
      | none => none
    | none => none
  | _, _ :: _ => none

/-! ## `JSON.stringify(data, null, 2)` and `JSON.parse` models -/

def spaces (n : Nat) : Str := List.replicate n ' '

def joinCommaNl : List Str → Str
  | [] => []
  | [l] => l
  | l :: ls => l ++ ',' :: '\n' :: joinCommaNl ls

mutual
/-- Pretty printer modelling `JSON.stringify(v, null, 2)` at indent
`ind`.  String escaping is not modelled (claims never depend on it);
`undefined` renders as `null` in array position and object members with
`undefined` values are dropped, as in JS. -/
def stringifyV (ind : Nat) : JVal → Str
  | .null => "null".data
  | .undef => "null".data
  | .boolV true => "true".data
  | .boolV false => "false".data
  | .num n => (toString n).data
  | .str s => '"' :: (s.data ++ ['"'])
  | .arr es =>
    match stringifyElems (ind + 2) es with
    | [] => ['[', ']']
    | its => ('[' :: '\n' :: joinCommaNl its) ++ '\n' :: (spaces ind ++ [']'])
  | .obj fields =>
    match stringifyMembers (ind + 2) fields with
    | [] => ['{', '}']
    | its => ('{' :: '\n' :: joinCommaNl its) ++ '\n' :: (spaces ind ++ ['}'])
def stringifyElems (ind : Nat) : List JVal → List Str
  | [] => []
  | v :: vs => (spaces ind ++ stringifyV ind v) :: stringifyElems ind vs
def stringifyMembers (ind : Nat) : List (String × JVal) → List Str
  | [] => []
  | (k, v) :: vs =>
    match v with
    | .undef => stringifyMembers ind vs
    | _ =>
      (spaces ind ++ ('"' :: (k.data ++ ['"', ':', ' '])) ++ stringifyV ind v)
        :: stringifyMembers ind vs
end

/-- `JSON.stringify` at top level: `undefined` stringifies to no string
at all (JS returns `undefined`). -/
def stringifyTop : JVal → Option Str
  | .undef => none
  | v => some (stringifyV 0 v)

def skipWs (s : Str) : Str :=
  s.dropWhile (fun c => c = ' ' || c = '\n' || c = '\t' || c = '\r')

mutual
/-- Fuel-indexed recursive-descent model of `JSON.parse` (integers,
strings without escapes, booleans, null, arrays, objects; floats and
escapes are outside the model and fail). -/
def parseJsonVal : Nat → Str → Option (JVal × Str)
  | 0, _ => none
  | Nat.succ fuel, s =>
    match skipWs s with
    | 'n' :: 'u' :: 'l' :: 'l' :: r => some (.null, r)
    | 't' :: 'r' :: 'u' :: 'e' :: r => some (.boolV true, r)
    | 'f' :: 'a' :: 'l' :: 's' :: 'e' :: r => some (.boolV false, r)
    | '"' :: r =>
      let content := r.takeWhile (fun c => c ≠ '"')
      if content.any (fun c => c = '\\') then none
      else
        match r.dropWhile (fun c => c ≠ '"') with
        | '"' :: r' => some (.str (String.mk content), r')
        | _ => none
    | '[' :: r =>
      (match skipWs r with
       | ']' :: r' => some (.arr [], r')
       | _ =>
         match parseArrElems fuel r with
         | some (es, r') => some (.arr es, r')
         | none => none)
    | '{' :: r =>
      (match skipWs r with
       | '}' :: r' => some (.obj [], r')
       | _ =>
         match parseObjMembers fuel r with
         | some (fs2, r') => some (.obj fs2, r')
         | none => none)
    | '-' :: r =>
      let (ds, r') := spanDigits r
      if ds = [] then none else some (.num (-(digitsToNat ds : Int)), r')
    | c :: r =>
      if c.isDigit then
        let (ds, r') := spanDigits (c :: r)
        some (.num (digitsToNat ds : Int), r')
      else none
    | [] => none
def parseArrElems : Nat → Str → Option (List JVal × Str)
  | 0, _ => none
  | Nat.succ fuel, s =>
    match parseJsonVal fuel s with
    | none => none
    | some (v, r) =>
      match skipWs r with
      | ',' :: r' =>
        (match parseArrElems fuel r' with
         | some (es, r2) => some (v :: es, r2)
         | none => none)
      | ']' :: r' => some ([v], r')
      | _ => none
def parseObjMembers : Nat → Str → Option (List (String × JVal) × Str)
  | 0, _ => none
  | Nat.succ fuel, s =>
    match skipWs s with
    | '"' :: r =>
      let key := r.takeWhile (fun c => c ≠ '"')
      if key.any (fun c => c = '\\') then none
      else
        match r.dropWhile (fun c => c ≠ '"') with
        | '"' :: r' =>
          (match skipWs r' with
           | ':' :: r2 =>
             (match parseJsonVal fuel r2 with
              | none => none
              | some (v, r3) =>
                match skipWs r3 with
                | ',' :: r4 =>
                  (match parseObjMembers fuel r4 with
                   | some (fs2, r5) => some ((String.mk key, v) :: fs2, r5)
                   | none => none)
                | '}' :: r4 => some ([(String.mk key, v)], r4)
                | _ => none)
           | _ => none)
        | _ => none
    | _ => none
end

/-- Model of `JSON.parse(content)`. -/
def parseJson (s : Str) : Option JVal :=
  match parseJsonVal (s.length + 2) s with
  | some (v, rest) => if skipWs rest = [] then some v else none
  | none => none

/-- Model of `applyJsonPatch(content, operations)`: parse, run the
operation loop, re-serialize.  `none` models a thrown error. -/
def applyJsonPatch (content : Str) (operations : List JsonOp) : Option Str :=
  match parseJson content with
  | none => none
  | some data =>
    match applyOpsToDoc data operations with
    | none => none
    | some d => stringifyTop d

/-! ## `handleJsonPatch` and the `applyPatch` dispatcher -/

/-- The `patch` request parameter: a raw JSON string or the
already-parsed operations array. -/
inductive PatchArg
  | strA (s : Str)
  | opsA (ops : List JsonOp)

/-- Decode one parsed operation object.  Non-object entries and
non-string `op`/`path` fields decode to `""` — they fail the handler's
validation loop either way (JS reports a slightly different message for
a truthy non-string `op`; only the failure itself matters here). -/
def decodeOp (v : JVal) : JsonOp :=
  match v with
  | .obj fields =>
    { op := match lookupField fields "op" with | some (.str s) => s | _ => ""
      path := match lookupField fields "path" with | some (.str s) => s | _ => ""
      value := (lookupField fields "value").getD .undef }
  | _ => ⟨"", "", .undef⟩

/-- The string branch of the `operations` intake:
`JSON.parse(patchInput)` followed by the `Array.isArray` check. -/
def decodeOps (s : Str) : Option (List JsonOp) :=
  match parseJson s with
  | some (.arr es) => some (es.map decodeOp)
  | _ => none

/-- The validation loop over the operations: first error message, if any. -/
def opsValidationError : List JsonOp → Option String
  | [] => none
  | op :: rest =>
    if op.op == "" || op.path == "" then
      some "Invalid operation: each entry needs op and path fields"
    else if !(op.op == "add" || op.op == "remove" || op.op == "replace") then
      some ("Unsupported operation type: " ++ op.op ++ ". Supported: add, remove, replace")
    else opsValidationError rest

/-- Success payload of `handleJsonPatch`. -/
structure JpOut where
  applied : Bool
  targetFile : Str
  operationCount : Nat
  preview : Option Str
deriving DecidableEq

/-- Response of `handleJsonPatch`. -/
inductive JpResp
  | ok (o : JpOut)
  | err (msg : String)
deriving DecidableEq

/-- JS `s.substring(0, n)`. -/
def jsSubstring0 (s : Str) (n : Nat) : Str := s.take n

/-- Model of `handleJsonPatch(patchInput, targetFile, root, agentId,
confirm)`: target validation (missing/empty `targetFile`, path policy,
existence), operations intake and validation, `applyJsonPatch`, the
commit write, and the response with its `preview` field
(`confirm ? undefined : newContent.substring(0, 2000)`). -/
def handleJsonPatch (patchInput : PatchArg) (targetFile : Option Str)
    (workspaceRoot : CPath) (allowed : List CPath) (confirm : Bool)
    (fs : FS) : JpResp × FS :=
  match targetFile with
  | none => (JpResp.err "json-patch format requires param: targetFile", fs)
  | some tf =>
    if tf = [] then
      (JpResp.err "json-patch format requires param: targetFile", fs)
    else
      match resolvePatchTarget tf workspaceRoot allowed fs with
      | Except.error msg => (JpResp.err msg, fs)
      | Except.ok resolved =>
        if !fs.existsSync resolved then
          (JpResp.err ("Target file not found: " ++ String.mk tf), fs)
        else
          match (match patchInput with
                 | PatchArg.opsA ops => some ops
                 | PatchArg.strA s => decodeOps s) with
          | none => (JpResp.err "Invalid JSON Patch", fs)
          | some operations =>
            match fs.readFile resolved with
            | none => (JpResp.err "applyPatch failed: EISDIR", fs)
            | some originalContent =>
              match opsValidationError operations with
              | some msg => (JpResp.err msg, fs)
              | none =>
                match applyJsonPatch originalContent operations with
                | none => (JpResp.err "Failed to apply JSON patch", fs)
                | some newContent =>
                  let fs1 := if confirm then fs.writeFile resolved newContent else fs
                  (JpResp.ok ⟨confirm, tf, operations.length,
                    if confirm then none else some (jsSubstring0 newContent 2000)⟩, fs1)

/-- Response of `handleApplyPatch`. -/
inductive ApplyResp
  | git (r : GdResp)
  | jsonp (r : JpResp)
  | err (msg : String)
deriving DecidableEq

/-- The request parameters of the `applyPatch` action, after the JS
defaulting (`format = 'git-diff'`, `confirm = false`). -/
structure ApplyParams where
  patch : Option PatchArg
  format : String
  confirm : Bool
  targetFile : Option Str

/-- Model of `handleApplyPatch(params, workspaceRoot, agentId)`: the
missing-`patch` guard (JS falsiness: an absent patch or an empty patch
string) and the format dispatch. -/
def handleApplyPatch (params : ApplyParams) (workspaceRoot : CPath)
    (allowed : List CPath) (fs : FS) : ApplyResp × FS :=
  match params.patch with
  | none => (ApplyResp.err "Missing required param: patch", fs)
  | some pa =>
    if (match pa with | PatchArg.strA s => s == [] | _ => false) then
      (ApplyResp.err "Missing required param: patch", fs)
    else if params.format == "git-diff" then
      match pa with
      | PatchArg.strA s =>
        let (r, fs') := handleGitDiff s workspaceRoot allowed params.confirm fs
        (ApplyResp.git r, fs')
      | PatchArg.opsA _ =>
        -- `patchStr.split` on an array throws; the outer catch responds failure
        (ApplyResp.err "applyPatch failed: patch.split is not a function", fs)
    else if params.format == "json-patch" then
      let (r, fs') := handleJsonPatch pa params.targetFile workspaceRoot allowed
        params.confirm fs
      (ApplyResp.jsonp r, fs')
    else
      (ApplyResp.err ("Unsupported patch format: " ++ params.format ++
        ". Supported: git-diff, json-patch"), fs)

/-! ## Auxiliary definitions for the claims -/

/-- The semantically-inverse diff line: `+` and `-` markers swapped. -/
def invertLine (l : Str) : Str :=
  match l with
  | '+' :: r => '-' :: r
  | '-' :: r => '+' :: r
  | _ => l

/-- A hunk with its addition and deletion lines swapped. -/
def invertHunk (h : Hunk) : Hunk :=
  { h with lines := h.lines.map invertLine }

/-- The semantically-inverse diff. -/
def invertPatch (p : PatchData) : PatchData :=
  { p with hunks := p.hunks.map invertHunk }

/-- The canonical form of a requested path: absolute requests normalize
directly, relative requests resolve against the workspace root (this is
the value the handlers go on to check). -/
def canonicalTarget (filePath : Str) (root : CPath) : CPath :=
  let p := strToPath filePath
  if p.absolute then normSegs p.segs else pathResolve (normSegs root) p

/-- The denial condition claimed by the spec, written from the claim's
words for comparison with `resolvePatchTarget`: denial iff the canonical
form of the request is neither workspace-confined (equal to the root or
under root-plus-separator) nor contained in (or equal to) an allow-list
entry, directory entries granting their recursive subtree and file
entries exact equality. -/
def claimedDenial (filePath : Str) (root : CPath) (allowed : List CPath)
    (fs : FS) : Bool :=
  let canon := canonicalTarget filePath root
  let nroot := normSegs root
  let confined := canon == nroot || (!nroot.isEmpty && nroot.isPrefixOf canon)
  let inList := allowed.any (fun a =>
    if fs.isDir a then canon == a || a.isPrefixOf canon else canon == a)
  !(confined || inList)

/-- A FilePatch whose effective target is nonempty, relative, and
rejected by the sandbox confinement check (a denial independent of the
filesystem and allow-list). -/
def sandboxDenied (p : PatchData) (root : CPath) : Prop :=
  effFilePath p ≠ [] ∧ (strToPath (effFilePath p)).absolute = false ∧
    resolveSafePath (strToPath (effFilePath p)) root = none

instance (p : PatchData) (root : CPath) : Decidable (sandboxDenied p root) := by
  unfold sandboxDenied; infer_instance

/-- Whether a target resolution was denied. -/
def resolutionDenied (filePath : Str) (root : CPath) (allowed : List CPath)
    (fs : FS) : Bool :=
  match resolvePatchTarget filePath root allowed fs with
  | Except.error _ => true
  | Except.ok _ => false

/-- The per-file entries of a successful git-diff response (empty for
any other response). -/
def gdFiles : ApplyResp → List FileResult
  | ApplyResp.git (GdResp.ok _ _ files) => files
  | _ => []

/-- Whether a git-diff response is a success. -/
def gdOk : GdResp → Bool
  | GdResp.ok _ _ _ => true
  | GdResp.err _ => false

/-! ## Concrete example inputs used by the claims -/

def wsRoot : CPath := [("ws".data)]

def fsEmpty : FS := ⟨[], [wsRoot]⟩

/-- Two-file diff: the first patch targets a fresh workspace file, the
second escapes the workspace through `..`. -/
def exDiffC1 : Str :=
  ("--- a/ok.txt\n+++ b/ok.txt\n@@ -1 +1,2 @@\n+hello\n--- a/../evil\n+++ b/../evil\n@@ -1 +1 @@\n+x\n").data

/-- Diff whose target file does not exist, with a single deletion line. -/
def exDiffC3 : Str := ("--- a/g.txt\n+++ b/g.txt\n@@ -1 +1 @@\n-x\n").data

/-- Allow-list with a file entry for `ws/sub/y.txt` and an entry for the
not-yet-existing path `ws/sub`. -/
def exAllowC1 : List CPath :=
  [[("ws".data), ("sub".data), ("y.txt".data)], [("ws".data), ("sub".data)]]

/-- Two new-file patches under `sub/`: the first is an exact allow-list
entry, the second only falls under the `ws/sub` entry once that path is a
directory. -/
def exDiffAllow : Str :=
  ("--- a/sub/y.txt\n+++ b/sub/y.txt\n@@ -1 +1 @@\n+hi\n--- a/sub/x.txt\n+++ b/sub/x.txt\n@@ -1 +1 @@\n+yo\n").data

/-- A workspace holding one JSON config file. -/
def exFsJson : FS :=
  ⟨[([("ws".data), ("cfg.json".data)], ("\x7b\"debug\": false\x7d".data))], [wsRoot]⟩

/-- A workspace holding one three-line text file. -/
def exFsMod : FS :=
  ⟨[([("ws".data), ("f.txt".data)], (("line1\nline2\nline3").data))], [wsRoot]⟩

/-- Diff replacing line 2 of `f.txt` (Scenario A shape). -/
def exDiffMod : Str :=
  ("--- a/f.txt\n+++ b/f.txt\n@@ -2 +2 @@\n-line2\n+new\n").data

/-- The twelve lines of the Scenario E example content. -/
def exLinesE : List Str :=
  [("l1".data), ("l2".data), ("l3".data), ("l4".data), ("l5".data),
   ("l6".data), ("l7".data), ("l8".data), ("l9".data), ("l10".data),
   ("l11".data), ("l12".data)]

/-- Single-hunk patch removing the only line of the content `"a"`; its
removal line matches the content exactly. -/
def exDelPatch : PatchData :=
  ⟨("a".data), some ("a".data), [⟨1, 1, 0, 0, [("-a".data)]⟩]⟩

/-!
## Basic lemmas and decidability instances

Everything above is the embedding of the source; everything below proves
properties of it.
-/

mutual
theorem beqV_iff : ∀ (a b : JVal), beqV a b = true ↔ a = b
  | .null, b => by cases b <;> simp [beqV]
  | .undef, b => by cases b <;> simp [beqV]
  | .boolV x, b => by cases b <;> simp [beqV]
  | .num x, b => by cases b <;> simp [beqV]
  | .str x, b => by cases b <;> simp [beqV]
  | .arr xs, b => by
    cases b <;> simp [beqV]
    exact beqL_iff xs _
  | .obj xf, b => by
    cases b <;> simp [beqV]
    exact beqF_iff xf _
theorem beqL_iff : ∀ (a b : List JVal), beqL a b = true ↔ a = b
  | [], [] => by simp [beqL]
  | [], _ :: _ => by simp [beqL]
  | _ :: _, [] => by simp [beqL]
  | x :: xs, y :: ys => by
    simp [beqL, beqV_iff x y, beqL_iff xs ys]
theorem beqF_iff : ∀ (a b : List (String × JVal)), beqF a b = true ↔ a = b
  | [], [] => by simp [beqF]
  | [], _ :: _ => by simp [beqF]
  | _ :: _, [] => by simp [beqF]
  | (k1, v1) :: r1, (k2, v2) :: r2 => by
    simp [beqF, beqV_iff v1 v2, beqF_iff r1 r2, and_assoc]
end

instance : DecidableEq JVal := fun a b => decidable_of_iff _ (beqV_iff a b)

deriving instance DecidableEq for JsonOp
deriving instance DecidableEq for PatchArg
deriving instance DecidableEq for ApplyParams
deriving instance DecidableEq for Except

theorem splitNl_ne_nil (s : Str) : splitNl s ≠ [] := by
  induction s with
  | nil => simp [splitNl]
  | cons c rest ih =>
    simp only [splitNl]
    cases h : splitNl rest with
    | nil => exact absurd h ih
    | cons l ls => split <;> simp

theorem joinNl_cons (l : Str) (ls : List Str) (h : ls ≠ []) :
    joinNl (l :: ls) = l ++ '\n' :: joinNl ls := by
  cases ls with
  | nil => exact absurd rfl h
  | cons x xs => rfl

/-- Re-joining the split of a content string recovers the string. -/
theorem joinNl_splitNl (s : Str) : joinNl (splitNl s) = s := by
  induction s with
  | nil => rfl
  | cons c rest ih =>
    simp only [splitNl]
    by_cases hc : c = '\n'
    · subst hc
      rw [if_pos rfl, joinNl_cons _ _ (splitNl_ne_nil rest), ih]
      rfl
    · rw [if_neg hc]
      cases h : splitNl rest with
      | nil => exact absurd h (splitNl_ne_nil rest)
      | cons l ls =>
        rw [h] at ih
        simp only [List.modifyHead]
        cases ls with
        | nil => simpa [joinNl] using congrArg (c :: ·) ih
        | cons y ys =>
          rw [joinNl_cons (c :: l) (y :: ys) (by simp)]
          rw [joinNl_cons l (y :: ys) (by simp)] at ih
          simpa using congrArg (c :: ·) ih

/-- Every piece produced by `splitNl` is newline-free. -/
theorem mem_splitNl_no_newline (s : Str) : ∀ l ∈ splitNl s, '\n' ∉ l := by
  induction s with
  | nil => intro l hl; simp [splitNl] at hl; simp [hl]
  | cons c rest ih =>
    intro l hl
    simp only [splitNl] at hl
    by_cases hc : c = '\n'
    · subst hc
      rw [if_pos rfl] at hl
      rcases List.mem_cons.mp hl with hl | hl
      · simp [hl]
      · exact ih l hl
    · rw [if_neg hc] at hl
      cases h : splitNl rest with
      | nil => exact absurd h (splitNl_ne_nil rest)
      | cons x xs =>
        rw [h] at hl
        rw [h] at ih
        simp only [List.modifyHead] at hl
        rcases List.mem_cons.mp hl with hl | hl
        · subst hl
          intro hmem
          rcases List.mem_cons.mp hmem with h1 | h1
          · exact hc h1.symm
          · exact ih x (by simp) h1
        · exact ih l (by simp [hl])

/-- A newline-free string splits to the single piece itself. -/
theorem splitNl_single (l : Str) (h : '\n' ∉ l) : splitNl l = [l] := by
  induction l with
  | nil => rfl
  | cons c rest ih =>
    have hc : c ≠ '\n' := fun he => h (he ▸ List.mem_cons_self c rest)
    have hrest : '\n' ∉ rest := fun hm => h (List.mem_cons_of_mem c hm)
    simp only [splitNl, ih hrest, if_neg hc, List.modifyHead]

theorem splitNl_append_newline (l t : Str) (h : '\n' ∉ l) :
    splitNl (l ++ '\n' :: t) = l :: splitNl t := by
  induction l with
  | nil => simp [splitNl]
  | cons c rest ih =>
    have hc : c ≠ '\n' := fun he => h (he ▸ List.mem_cons_self c rest)
    have hrest : '\n' ∉ rest := fun hm => h (List.mem_cons_of_mem c hm)
    simp only [List.cons_append, splitNl, if_neg hc, List.append_eq]
    rw [ih hrest]
    simp [List.modifyHead]

/-- Splitting the join of nonempty, newline-free pieces recovers the pieces. -/
theorem splitNl_joinNl (ls : List Str) (hne : ls ≠ [])
    (h : ∀ l ∈ ls, '\n' ∉ l) : splitNl (joinNl ls) = ls := by
  induction ls with
  | nil => exact absurd rfl hne
  | cons l rest ih =>
    cases rest with
    | nil => exact splitNl_single l (h l (by simp))
    | cons y ys =>
      rw [joinNl_cons _ _ (by simp)]
      rw [splitNl_append_newline _ _ (h l (by simp))]
      rw [ih (by simp) (fun x hx => h x (List.mem_cons_of_mem l hx))]

/-- In-bounds splice is take/insert/drop. -/
theorem jsSplice_eq_of_le (l : List α) (s d : Nat) (items : List α)
    (h : s + d ≤ l.length) :
    jsSplice l (s : Int) d items = l.take s ++ items ++ l.drop (s + d) := by
  have hs : ¬ ((s : Int) < 0) := by omega
  simp only [jsSplice, if_neg hs, Int.toNat_natCast]
  have h1 : min s l.length = s := by omega
  have h2 : min d (l.length - s) = d := by omega
  rw [h1, h2]



/-! ## Path-resolution lemmas -/

theorem resolveSafePath_some_eq (p : RawPath) (root : CPath) (r : CPath)
    (h : resolveSafePath p root = some r) : r = pathResolve (normSegs root) p := by
  unfold resolveSafePath at h
  simp only at h
  split at h
  · exact (Option.some.inj h).symm
  · exact absurd h (by simp)

/-! ## Claim theorems -/

/-- C1 counterexample: a commit-mode diff whose second FilePatch escapes
the workspace fails as a whole, but the first FilePatch's file has
already been created when the denial is raised — path validation is
interleaved with application, not performed up front. -/
theorem C1_counterexample :
    (handleGitDiff exDiffC1 wsRoot [] true fsEmpty).1 =
      GdResp.err "Path traversal denied: ../evil" ∧
    (handleGitDiff exDiffC1 wsRoot [] true fsEmpty).2.readFile
      [("ws".data), ("ok.txt".data)] = some ("hello".data) ∧
    (handleGitDiff exDiffC1 wsRoot [] true fsEmpty).2 ≠ fsEmpty := by decide

/-- C2 counterexample: with workspace root `/ws` and an empty allow-list,
the absolute request `/etc/passwd` is resolved successfully although the
claim's condition (neither workspace-confined nor allow-listed) says it
must be denied — absolute paths bypass workspace confinement entirely. -/
theorem C2_counterexample :
    resolvePatchTarget ("/etc/passwd".data) wsRoot [] fsEmpty =
      Except.ok [("etc".data), ("passwd".data)] ∧
    claimedDenial ("/etc/passwd".data) wsRoot [] fsEmpty = true := by decide

/-- C2 (amended): target resolution is denied iff either the request is
relative and its canonical form fails workspace confinement, or the
allow-list is non-empty and the canonical form is not allowed by it.
Absolute requests are never workspace-checked, and a non-empty
allow-list also restricts workspace-confined paths. -/
theorem C2_theorem (filePath : Str) (root : CPath) (allowed : List CPath)
    (fs : FS) :
    resolutionDenied filePath root allowed fs =
      ((!(strToPath filePath).absolute &&
          (resolveSafePath (strToPath filePath) root).isNone) ||
        (!allowed.isEmpty &&
          !isTargetAllowedByList (canonicalTarget filePath root) allowed fs)) := by
  unfold resolutionDenied resolvePatchTarget canonicalTarget
  cases habs : (strToPath filePath).absolute with
  | true =>
    by_cases hck : (!allowed.isEmpty &&
        !isTargetAllowedByList (normSegs (strToPath filePath).segs) allowed fs) = true
    · simp [habs, hck]
    · simp [habs, hck]
  | false =>
    cases hres : resolveSafePath (strToPath filePath) root with
    | none => simp [habs, hres]
    | some r =>
      have hr := resolveSafePath_some_eq _ _ _ hres
      subst hr
      by_cases hck : (!allowed.isEmpty &&
          !isTargetAllowedByList (pathResolve (normSegs root) (strToPath filePath))
            allowed fs) = true
      · simp [habs, hres, hck]
      · simp only [habs, hres]
        simp [hck]

/-- C3 counterexample: for a diff whose target file does not exist and
whose hunk holds one deletion line and no additions, preview mode
reports totals (added 0, removed 1) while commit mode reports
(added 1, removed 0): the created empty content splits to one line, and
deletion lines of a new-file patch are never counted in commit mode. -/
theorem C3_counterexample :
    (handleGitDiff exDiffC3 wsRoot [] false fsEmpty).1 =
      GdResp.ok false ⟨[("g.txt".data)], 1, 0, 1⟩
        [⟨("g.txt".data), "dry-run", none, none⟩] ∧
    (handleGitDiff exDiffC3 wsRoot [] true fsEmpty).1 =
      GdResp.ok true ⟨[("g.txt".data)], 1, 1, 0⟩
        [⟨("g.txt".data), "created", some 1, some 0⟩] := by decide

/-- C6 counterexample: on the document `{}`, Add at `/a/b` followed by
Remove at `/a/b` yields `{"a": {}}`, not the original document — the
intermediate container created by the Add survives the Remove. -/
theorem C6_counterexample :
    applyOpsToDoc (.obj [])
      [⟨"add", "/a/b", .boolV true⟩, ⟨"remove", "/a/b", .undef⟩] =
      some (.obj [("a", .obj [])]) ∧
    JVal.obj [("a", .obj [])] ≠ .obj [] := by decide

/-- C7 counterexample: for content `"a"` and the valid single-hunk diff
removing its single (matching) line, applying the diff and then its
inverse yields `"a\n"`, not `"a"`: the empty intermediate content
re-splits as one empty line, so the inverse insertion lands before a
spurious empty line. -/
theorem C7_counterexample :
    hunkRemovals [("-a".data)] = ((splitNl ("a".data)).drop 0).take 1 ∧
    (applyUnifiedPatch (applyUnifiedPatch ("a".data) exDelPatch).content
      (invertPatch exDelPatch)).content = ("a\n").data ∧
    ("a\n").data ≠ ("a").data := by decide

/-- C8 counterexample: removing the non-existent path `/x` from the
array document `[1, 2]` is not a no-op: `parseInt("x")` is `NaN`,
`splice(NaN, 1)` splices at 0, and the first element is removed (the
operation still reports success). -/
theorem C8_counterexample :
    canonicalIndex "x" = none ∧
    applyOpsToDoc (.arr [.num 1, .num 2]) [⟨"remove", "/x", .undef⟩] =
      some (.arr [.num 2]) ∧
    JVal.arr [.num 2] ≠ .arr [.num 1, .num 2] := by decide

/-! ## Hunk-application lemmas -/

theorem applyHunkStep_eq (st : ApplyState) (h : Hunk) (s : Nat)
    (hs : (h.oldStart : Int) - 1 + st.offset = (s : Int))
    (hbound : s + (hunkRemovals h.lines).length ≤ st.lines.length) :
    applyHunkStep st h =
      ⟨st.lines.take s ++ hunkAdditions h.lines ++
        st.lines.drop (s + (hunkRemovals h.lines).length),
       st.offset + (hunkAdditions h.lines).length - (hunkRemovals h.lines).length,
       st.linesAdded + (hunkAdditions h.lines).length,
       st.linesRemoved + (hunkRemovals h.lines).length⟩ := by
  unfold applyHunkStep
  simp only
  rw [hs, jsSplice_eq_of_le _ _ _ _ hbound]

theorem hunkRemovals_cons_plus (a : Str) (rest : List Str) :
    hunkRemovals (('+' :: a) :: rest) = hunkRemovals rest := by
  simp [hunkRemovals, strStartsWith]

theorem hunkRemovals_cons_minus (a : Str) (rest : List Str) :
    hunkRemovals (('-' :: a) :: rest) = a :: hunkRemovals rest := by
  simp [hunkRemovals, strStartsWith]

theorem hunkAdditions_cons_plus (a : Str) (rest : List Str) :
    hunkAdditions (('+' :: a) :: rest) = a :: hunkAdditions rest := by
  simp [hunkAdditions, strStartsWith]

theorem hunkAdditions_cons_minus (a : Str) (rest : List Str) :
    hunkAdditions (('-' :: a) :: rest) = hunkAdditions rest := by
  simp [hunkAdditions, strStartsWith]

theorem hunkRemovals_nil : hunkRemovals [] = [] := rfl
theorem hunkAdditions_nil : hunkAdditions [] = [] := rfl

theorem C4_theorem (X : Str) (xs : List Str) (a b d : Str) (oldP newP : Str)
    (hsplit : splitNl X = xs) (hlen : 10 ≤ xs.length) :
    applyUnifiedPatch X ⟨oldP, some newP,
      [⟨3, 0, 3, 2, ['+' :: a, '+' :: b]⟩, ⟨10, 1, 12, 0, ['-' :: d]⟩]⟩ =
    ⟨joinNl (xs.take 2 ++ [a, b] ++ ((xs.drop 2).take 7 ++ xs.drop 10)), 2, 1⟩ := by
  have hrem1 : hunkRemovals ['+' :: a, '+' :: b] = [] := by
    rw [hunkRemovals_cons_plus, hunkRemovals_cons_plus, hunkRemovals_nil]
  have hadd1 : hunkAdditions ['+' :: a, '+' :: b] = [a, b] := by
    rw [hunkAdditions_cons_plus, hunkAdditions_cons_plus, hunkAdditions_nil]
  have hrem2 : hunkRemovals ['-' :: d] = [d] := by
    rw [hunkRemovals_cons_minus, hunkRemovals_nil]
  have hadd2 : hunkAdditions ['-' :: d] = [] := by
    rw [hunkAdditions_cons_minus, hunkAdditions_nil]
  unfold applyUnifiedPatch
  simp only [List.foldl]
  rw [hsplit]
  rw [applyHunkStep_eq ⟨xs, 0, 0, 0⟩ ⟨3, 0, 3, 2, ['+' :: a, '+' :: b]⟩ 2
    (by norm_num) (by simp [hrem1]; omega)]
  simp only [hrem1, hadd1, List.length_nil, List.length_cons, Nat.add_zero]
  rw [applyHunkStep_eq _ ⟨10, 1, 12, 0, ['-' :: d]⟩ 11
    (by norm_num) (by simp [hrem2, List.length_take]; omega)]
  simp only [hrem2, hadd2]
  have h2len : (xs.take 2).length = 2 := by rw [List.length_take]; omega
  have htake : ((xs.take 2 ++ a :: b :: xs.drop 2).take 11) =
      xs.take 2 ++ a :: b :: (xs.drop 2).take 7 := by
    show ((xs.take 2 ++ ([a, b] ++ xs.drop 2)).take 11) =
      xs.take 2 ++ ([a, b] ++ (xs.drop 2).take 7)
    rw [List.take_append_eq_append_take, h2len,
      List.take_of_length_le (le_of_eq_of_le h2len (by omega))]
    norm_num [List.take_append_eq_append_take]
  have hdrop : ((xs.take 2 ++ a :: b :: xs.drop 2).drop 12) = xs.drop 10 := by
    show ((xs.take 2 ++ ([a, b] ++ xs.drop 2)).drop 12) = xs.drop 10
    rw [List.drop_append_eq_append_drop, h2len]
    have h1 : List.drop 12 (List.take 2 xs) = [] :=
      List.drop_eq_nil_of_le (le_of_eq_of_le h2len (by omega))
    rw [h1, List.nil_append]
    rw [List.drop_append_eq_append_drop]
    norm_num [List.drop_drop]
  simp only [List.length_cons, List.length_nil, List.nil_append]
  norm_num
  rw [htake, hdrop]
  simp [List.append_assoc]

/-- C4 witness: the offset-propagation scenario at a concrete 12-line
content. -/
theorem C4_witness :
    applyUnifiedPatch
      (("l1\nl2\nl3\nl4\nl5\nl6\nl7\nl8\nl9\nl10\nl11\nl12").data)
      ⟨("e".data), some ("e".data),
        [⟨3, 0, 3, 2, ['+' :: ("X".data), '+' :: ("Y".data)]⟩,
         ⟨10, 1, 12, 0, ['-' :: ("l10".data)]⟩]⟩ =
    ⟨joinNl (exLinesE.take 2 ++ [("X".data), ("Y".data)] ++
      ((exLinesE.drop 2).take 7 ++ exLinesE.drop 10)), 2, 1⟩ :=
  C4_theorem _ exLinesE ("X".data) ("Y".data) ("l10".data) ("e".data) ("e".data)
    (by decide) (by decide)


/-! ## Parser lemmas (for C9) -/

theorem modifyIdx_length (l : List α) (i : Nat) (f : α → α) :
    (modifyIdx l i f).length = l.length := by
  unfold modifyIdx
  cases h : l[i]? <;> simp

theorem getD_modifyIdx_self (l : List α) (i : Nat) (f : α → α) (d : α)
    (h : i < l.length) : (modifyIdx l i f).getD i d = f (l.getD i d) := by
  unfold modifyIdx
  cases hx : l[i]? with
  | none => exact absurd hx (by simp [List.getElem?_eq_some_iff]; omega)
  | some a =>
    simp [List.getD_eq_getElem?_getD, List.getElem?_set_self h, hx]

theorem getD_modifyIdx_ne (l : List α) (i j : Nat) (f : α → α) (d : α)
    (h : i ≠ j) : (modifyIdx l i f).getD j d = l.getD j d := by
  unfold modifyIdx
  cases hx : l[i]? with
  | none => rfl
  | some a => simp [List.getD_eq_getElem?_getD, List.getElem?_set_ne h]

theorem getD_append_left (l m : List α) (i : Nat) (d : α) (h : i < l.length) :
    (l ++ m).getD i d = l.getD i d := by
  simp [List.getD_eq_getElem?_getD, List.getElem?_append_left h]

theorem modifyIdx_oob (l : List α) (k : Nat) (f : α → α)
    (h : ¬ k < l.length) : modifyIdx l k f = l := by
  unfold modifyIdx
  rw [List.getElem?_eq_none (by omega)]

theorem inv_store_update (store : List PatchData) (out : List Nat) (k : Nat)
    (f : PatchData → PatchData) (hf : ∀ p, (f p).newFile = p.newFile)
    (hinv : ∀ i ∈ out, i < store.length ∧
      ((store.getD i ⟨[], none, []⟩).newFile).isSome = true) :
    ∀ i ∈ out, i < (modifyIdx store k f).length ∧
      (((modifyIdx store k f).getD i ⟨[], none, []⟩).newFile).isSome = true := by
  intro i hi
  obtain ⟨hl, hs⟩ := hinv i hi
  rw [modifyIdx_length]
  refine ⟨hl, ?_⟩
  by_cases hk : k < store.length
  · by_cases hki : k = i
    · subst hki
      rw [getD_modifyIdx_self _ _ _ _ hk, hf]
      exact hs
    · rw [getD_modifyIdx_ne _ _ _ _ _ hki]
      exact hs
  · rw [modifyIdx_oob _ _ _ hk]
    exact hs

theorem parseStep_inv (st : ParseState) (line : Str)
    (hinv : ∀ i ∈ st.out, i < st.store.length ∧
      ((st.store.getD i ⟨[], none, []⟩).newFile).isSome = true)
    (hcur : ∀ i, st.current = some i → i < st.store.length) :
    (∀ i ∈ (parseStep st line).out, i < (parseStep st line).store.length ∧
      (((parseStep st line).store.getD i ⟨[], none, []⟩).newFile).isSome = true) ∧
    (∀ i, (parseStep st line).current = some i →
      i < (parseStep st line).store.length) := by
  by_cases h1 : strStartsWith ("--- ".data) line = true
  · simp only [parseStep, if_pos h1]
    constructor
    · intro i hi
      obtain ⟨hlt, hsome⟩ := hinv i hi
      simp only [List.length_append, List.length_cons, List.length_nil]
      refine ⟨by omega, ?_⟩
      rw [getD_append_left _ _ _ _ hlt]
      exact hsome
    · intro i hi
      injection hi with hi
      simp [← hi]
  · by_cases h2 : (strStartsWith ("+++ ".data) line && st.current.isSome) = true
    · cases hc : st.current with
      | none => rw [hc] at h2; simp at h2
      | some i =>
        have hlt : i < st.store.length := hcur i hc
        rw [hc] at h2
        simp only [parseStep, if_neg h1, hc, if_pos h2]
        constructor
        · intro j hj
          rw [List.mem_append, List.mem_singleton] at hj
          rw [modifyIdx_length]
          rcases hj with hj | hj
          · obtain ⟨hjlt, hjsome⟩ := hinv j hj
            refine ⟨hjlt, ?_⟩
            by_cases hij : i = j
            · subst hij
              rw [getD_modifyIdx_self _ _ _ _ hlt]
              simp
            · rw [getD_modifyIdx_ne _ _ _ _ _ hij]
              exact hjsome
          · subst hj
            refine ⟨hlt, ?_⟩
            rw [getD_modifyIdx_self _ _ _ _ hlt]
            simp
        · intro j hj
          rw [modifyIdx_length]
          exact hcur j (hc ▸ hj)
    · -- hunk-header or content-line branches: `out` and `current` are
      -- unchanged and every store modification preserves `newFile`
      simp only [parseStep, if_neg h1, if_neg h2]
      rcases hm : matchHunkHeader line with _ | ⟨a, b, c2, d⟩
      · rcases hh : st.hunkRef with _ | ⟨k, j⟩
        · exact ⟨hinv, hcur⟩
        · by_cases hq : lineQualifies line = true
          · simp only [if_pos hq]
            refine ⟨inv_store_update _ _ _ _ (fun p => rfl) hinv, ?_⟩
            intro q hqq
            rw [modifyIdx_length]
            exact hcur q hqq
          · simp only [if_neg hq]
            exact ⟨hinv, hcur⟩
      · rcases hc : st.current with _ | i
        · rcases hh : st.hunkRef with _ | ⟨k, j⟩
          · exact ⟨hinv, hcur⟩
          · by_cases hq : lineQualifies line = true
            · simp only [if_pos hq]
              refine ⟨inv_store_update _ _ _ _ (fun p => rfl) hinv, ?_⟩
              intro q hqq
              rw [modifyIdx_length]
              exact hcur q (hc ▸ hqq)
            · simp only [if_neg hq]
              exact ⟨hinv, hcur⟩
        · refine ⟨inv_store_update _ _ _ _ (fun p => rfl) hinv, ?_⟩
          intro q hqq
          rw [modifyIdx_length]
          exact hcur q (hc ▸ hqq)

theorem parseFold_inv (lines : List Str) :
    ∀ (st : ParseState),
      (∀ i ∈ st.out, i < st.store.length ∧
        ((st.store.getD i ⟨[], none, []⟩).newFile).isSome = true) →
      (∀ i, st.current = some i → i < st.store.length) →
      ∀ i ∈ (lines.foldl parseStep st).out,
        i < (lines.foldl parseStep st).store.length ∧
        (((lines.foldl parseStep st).store.getD i ⟨[], none, []⟩).newFile).isSome
          = true := by
  induction lines with
  | nil => intro st hinv hcur; simpa using hinv
  | cons l rest ih =>
    intro st hinv hcur
    obtain ⟨h1, h2⟩ := parseStep_inv st l hinv hcur
    exact ih (parseStep st l) h1 h2

/-- C9: every FilePatch in the sequence returned by the unified-diff
parser has its new-file path set (non-null): a patch object is pushed to
the output only in the `+++ ` branch, which sets `newFile` to a string —
so a trailing `--- ` header with no matching `+++ ` contributes nothing.
(`oldFile` is a string on every patch object by construction.) -/
theorem C9_theorem (s : Str) :
    (parseUnifiedDiff s).all (fun p => p.newFile.isSome) = true := by
  unfold parseUnifiedDiff
  simp only
  rw [List.all_eq_true]
  intro p hp
  rw [List.mem_map] at hp
  obtain ⟨i, hi, hpe⟩ := hp
  have h := parseFold_inv (splitNl s) ⟨[], [], none, none⟩ (by simp) (by simp) i hi
  rw [← hpe]
  exact h.2


/-! ## Preview-mode and denial lemmas (for C5 and C1) -/

theorem handleJsonPatch_preview_fs (pi : PatchArg) (tf : Option Str)
    (root : CPath) (allowed : List CPath) (fs : FS) :
    (handleJsonPatch pi tf root allowed false fs).2 = fs := by
  unfold handleJsonPatch
  repeat' split
  all_goals first
    | rfl
    | simp_all

theorem gitDiffLoop_preview (root : CPath) (allowed : List CPath) :
    ∀ (patches : List PatchData) (summary : GdSummary) (frs : List FileResult)
      (fs : FS),
      (gitDiffLoop root allowed false patches summary frs fs).2 = fs ∧
      (∀ res files,
        (gitDiffLoop root allowed false patches summary frs fs).1 =
          Sum.inr (res, files) →
        ∀ r ∈ files, r ∈ frs ∨ r.status = "dry-run") := by
  intro patches
  induction patches with
  | nil =>
    intro summary frs fs
    refine ⟨by trivial, ?_⟩
    intro res files h r hr
    simp only [gitDiffLoop] at h
    injection h with h
    injection h with h1 h2
    subst h2
    exact Or.inl hr
  | cons patchData rest ih =>
    intro summary frs fs
    by_cases hfp : effFilePath patchData = []
    · simp only [gitDiffLoop, if_pos hfp]
      exact ih summary frs fs
    · simp only [gitDiffLoop, if_neg hfp]
      cases hres : resolvePatchTarget (effFilePath patchData) root allowed fs with
      | error msg =>
        refine ⟨by trivial, ?_⟩
        intro res files h
        cases h
      | ok resolved =>
        simp only [Bool.false_eq_true, if_neg]
        obtain ⟨hfs, hmem⟩ := ih _ (frs ++ [⟨effFilePath patchData, "dry-run", none, none⟩]) fs
        refine ⟨hfs, ?_⟩
        intro res files h r hr
        rcases hmem res files h r hr with hin | hdry
        · rcases List.mem_append.mp hin with hl | hl
          · exact Or.inl hl
          · rw [List.mem_singleton] at hl
            subst hl
            exact Or.inr rfl
        · exact Or.inr hdry

theorem handleGitDiff_preview (s : Str) (root : CPath) (allowed : List CPath)
    (fs : FS) :
    (handleGitDiff s root allowed false fs).2 = fs ∧
    ∀ a summ files,
      (handleGitDiff s root allowed false fs).1 = GdResp.ok a summ files →
      ∀ r ∈ files, r.status = "dry-run" := by
  unfold handleGitDiff
  by_cases hlen : (parseUnifiedDiff s).length = 0
  · simp only [if_pos hlen]
    refine ⟨by trivial, ?_⟩
    intro a summ files h
    cases h
  · simp only [if_neg hlen]
    obtain ⟨hfs, hmem⟩ :=
      gitDiffLoop_preview root allowed (parseUnifiedDiff s) ⟨[], 0, 0, 0⟩ [] fs
    rcases hloop : gitDiffLoop root allowed false (parseUnifiedDiff s)
      ⟨[], 0, 0, 0⟩ [] fs with ⟨res | ⟨summ, files⟩, fs'⟩
    · rw [hloop] at hfs
      refine ⟨hfs, ?_⟩
      intro a summ files h
      cases h
    · rw [hloop] at hfs hmem
      refine ⟨hfs, ?_⟩
      intro a summ2 files2 h r hr
      injection h with h1 h2 h3
      subst h3
      rcases hmem summ files rfl r hr with hin | hdry
      · exact absurd hin (List.not_mem_nil r)
      · exact hdry

/-- C5: for every request with commit=false, in both the unified-diff and
structured formats (and for rejected requests of any format), the
filesystem after the request equals the filesystem before it, and every
per-file status of a unified-diff response is reported as dry-run. -/
theorem C5_theorem (params : ApplyParams) (root : CPath)
    (allowed : List CPath) (fs : FS) (hconfirm : params.confirm = false) :
    (handleApplyPatch params root allowed fs).2 = fs ∧
    ∀ r ∈ gdFiles (handleApplyPatch params root allowed fs).1,
      r.status = "dry-run" := by
  rcases params with ⟨patch, format, confirm, targetFile⟩
  simp only at hconfirm
  subst hconfirm
  unfold handleApplyPatch
  rcases patch with _ | pa
  · refine ⟨by trivial, ?_⟩
    intro r hr
    simp [gdFiles] at hr
  · simp only
    by_cases hempty : (match pa with
      | PatchArg.strA s => s == ([] : Str)
      | _ => false) = true
    · rw [if_pos hempty]
      refine ⟨by trivial, ?_⟩
      intro r hr
      simp [gdFiles] at hr
    · rw [if_neg hempty]
      by_cases hfmt : (format == "git-diff") = true
      · rw [if_pos hfmt]
        rcases pa with s | ops
        · simp only
          obtain ⟨hfs, hst⟩ := handleGitDiff_preview s root allowed fs
          rcases hgd : handleGitDiff s root allowed false fs with ⟨r, fs'⟩
          rw [hgd] at hfs hst
          refine ⟨hfs, ?_⟩
          intro q hq
          cases r with
          | ok a summ files =>
            simp only [gdFiles] at hq
            exact hst a summ files rfl q hq
          | err m => simp [gdFiles] at hq
        · refine ⟨by trivial, ?_⟩
          intro r hr
          simp [gdFiles] at hr
      · rw [if_neg hfmt]
        by_cases hfmt2 : (format == "json-patch") = true
        · rw [if_pos hfmt2]
          simp only
          have hfs := handleJsonPatch_preview_fs pa targetFile root allowed fs
          rcases hjp : handleJsonPatch pa targetFile root allowed false fs with ⟨r, fs'⟩
          rw [hjp] at hfs
          exact ⟨hfs, fun q hq => by simp [gdFiles] at hq⟩
        · rw [if_neg hfmt2]
          refine ⟨by trivial, ?_⟩
          intro r hr
          simp [gdFiles] at hr

theorem resolvePatchTarget_error_of_denied (p : PatchData) (root : CPath)
    (allowed : List CPath) (fs : FS) (hd : sandboxDenied p root) :
    ∃ msg, resolvePatchTarget (effFilePath p) root allowed fs =
      Except.error msg := by
  obtain ⟨hne, habs, hnone⟩ := hd
  unfold resolvePatchTarget
  simp only [habs, Bool.false_eq_true, if_false, hnone]
  exact ⟨_, rfl⟩

theorem gitDiffLoop_err_of_denied (root : CPath) (allowed : List CPath)
    (confirm : Bool) :
    ∀ (patches : List PatchData) (summary : GdSummary) (frs : List FileResult)
      (fs : FS), (∃ p ∈ patches, sandboxDenied p root) →
      ∃ msg fs', gitDiffLoop root allowed confirm patches summary frs fs =
        (Sum.inl msg, fs') := by
  intro patches
  induction patches with
  | nil =>
    intro _ _ _ h
    obtain ⟨p, hp, _⟩ := h
    cases hp
  | cons q rest ih =>
    intro summary frs fs h
    by_cases hfp : effFilePath q = []
    · simp only [gitDiffLoop, if_pos hfp]
      obtain ⟨p, hp, hd⟩ := h
      rcases List.mem_cons.mp hp with rfl | hp2
      · exact absurd hfp hd.1
      · exact ih summary frs fs ⟨p, hp2, hd⟩
    · simp only [gitDiffLoop, if_neg hfp]
      cases hres : resolvePatchTarget (effFilePath q) root allowed fs with
      | error msg => exact ⟨msg, fs, rfl⟩
      | ok resolved =>
        obtain ⟨p, hp, hd⟩ := h
        rcases List.mem_cons.mp hp with rfl | hp2
        · obtain ⟨msg, hmsg⟩ :=
            resolvePatchTarget_error_of_denied p root allowed fs hd
          rw [hres] at hmsg
          cases hmsg
        · cases confirm with
          | true =>
            simp only [if_pos rfl]
            by_cases hex : (!fs.existsSync resolved) = true
            · simp only [if_pos hex]
              exact ih _ _ _ ⟨p, hp2, hd⟩
            · simp only [if_neg hex]
              cases hrf : fs.readFile resolved with
              | none => exact ⟨_, fs, rfl⟩
              | some orig => exact ih _ _ _ ⟨p, hp2, hd⟩
          | false =>
            simp only [Bool.false_eq_true, if_false]
            exact ih _ _ _ ⟨p, hp2, hd⟩

/-- C1 (amended): a FilePatch whose nonempty relative target the sandbox
confinement check denies fails the whole request with an error response,
in preview and commit mode alike, though files already written by earlier
FilePatches of a commit run are not rolled back (see the counterexample);
allow-list denials, by contrast, are evaluated against the live
filesystem when each patch is reached, so a target denied by the
allow-list at the initial filesystem can still be admitted — and the
whole commit succeed — after an earlier patch's directory creation turns
an allow-list entry into a directory granting its subtree. -/
theorem C1_theorem :
    (∀ (patchStr : Str) (root : CPath) (allowed : List CPath)
       (confirm : Bool) (fs : FS),
       (∃ p ∈ parseUnifiedDiff patchStr, sandboxDenied p root) →
       ∃ msg fs', handleGitDiff patchStr root allowed confirm fs =
         (GdResp.err msg, fs')) ∧
    resolutionDenied (("sub/x.txt").data) wsRoot exAllowC1 fsEmpty = true ∧
    resolutionDenied (("sub/y.txt").data) wsRoot exAllowC1 fsEmpty = false ∧
    gdOk (handleGitDiff exDiffAllow wsRoot exAllowC1 true fsEmpty).1 = true := by
  refine ⟨?_, by decide, by decide, by decide⟩
  intro patchStr root allowed confirm fs hdenied
  unfold handleGitDiff
  have hne : ¬ (parseUnifiedDiff patchStr).length = 0 := by
    obtain ⟨p, hp, _⟩ := hdenied
    intro h0
    rw [List.length_eq_zero] at h0
    rw [h0] at hp
    cases hp
  rw [if_neg hne]
  obtain ⟨msg, fs', hloop⟩ := gitDiffLoop_err_of_denied root allowed confirm
    (parseUnifiedDiff patchStr) ⟨[], 0, 0, 0⟩ [] fs hdenied
  rw [hloop]
  exact ⟨msg, fs', rfl⟩

/-- C1 witness: the concrete two-file commit run with a sandbox-denied
second patch fails as a whole. -/
theorem C1_witness :
    ∃ msg fs', handleGitDiff exDiffC1 wsRoot [] true fsEmpty =
      (GdResp.err msg, fs') :=
  C1_theorem.1 exDiffC1 wsRoot [] true fsEmpty (by decide)

/-- C5 witness: the concrete preview run leaves the filesystem unchanged
and reports dry-run for its file. -/
theorem C5_witness :
    (handleApplyPatch ⟨some (PatchArg.strA exDiffC3), "git-diff", false, none⟩
      wsRoot [] fsEmpty).2 = fsEmpty ∧
    ∀ r ∈ gdFiles (handleApplyPatch
      ⟨some (PatchArg.strA exDiffC3), "git-diff", false, none⟩
      wsRoot [] fsEmpty).1, r.status = "dry-run" :=
  C5_theorem ⟨some (PatchArg.strA exDiffC3), "git-diff", false, none⟩
    wsRoot [] fsEmpty rfl


/-! ## `handleJsonPatch` preview characterization (C10) -/

/-- C10: every successful structured-format response carries, in preview
mode, a `preview` that is the 2000-character prefix of the full
serialization of the patched document, and no `preview` at all in commit
mode. -/
theorem C10_theorem (patchInput : PatchArg) (targetFile : Option Str)
    (root : CPath) (allowed : List CPath) (confirm : Bool) (fs : FS)
    (o : JpOut) (fs₂ : FS)
    (h : handleJsonPatch patchInput targetFile root allowed confirm fs =
      (JpResp.ok o, fs₂)) :
    ∃ resolved originalContent operations full,
      fs.readFile resolved = some originalContent ∧
      applyJsonPatch originalContent operations = some full ∧
      o.preview = (if confirm then none else some (jsSubstring0 full 2000)) ∧
      ∀ pre, o.preview = some pre →
        pre.length ≤ 2000 ∧ pre ++ full.drop 2000 = full := by
  unfold handleJsonPatch at h
  repeat' split at h
  any_goals (injection h with h1 h2; cases h1)
  all_goals refine ⟨_, _, _, _, by assumption, by assumption, ?_, ?_⟩
  · rename_i _ hconf
    simp [hconf]
  · rename_i _ hconf
    intro pre hpre
    simp [hconf] at hpre
  · rename_i _ hconf
    simp [hconf]
  · rename_i _ hconf
    intro pre hpre
    simp only [if_neg hconf] at hpre
    injection hpre with hpre
    subst hpre
    unfold jsSubstring0
    constructor
    · rw [List.length_take]
      omega
    · exact List.take_append_drop 2000 _

/-- C10 witness: a concrete successful preview run. -/
theorem C10_witness :
    ∃ resolved originalContent operations full,
      exFsJson.readFile resolved = some originalContent ∧
      applyJsonPatch originalContent operations = some full ∧
      (JpOut.mk false ("cfg.json".data) 1
          (some (("\x7b\n  \"debug\": true\n\x7d").data))).preview =
        (if false then none else some (jsSubstring0 full 2000)) ∧
      ∀ pre, (JpOut.mk false ("cfg.json".data) 1
          (some (("\x7b\n  \"debug\": true\n\x7d").data))).preview = some pre →
        pre.length ≤ 2000 ∧ pre ++ full.drop 2000 = full :=
  C10_theorem (PatchArg.opsA [⟨"replace", "/debug", .boolV true⟩])
    (some ("cfg.json".data)) wsRoot [] false exFsJson
    ⟨false, ("cfg.json".data), 1,
      some (("\x7b\n  \"debug\": true\n\x7d").data)⟩ exFsJson (by decide)


/-! ## Inverse-diff lemmas and the round-trip theorem (C7) -/

theorem hunkRemovals_cons_nil (rest : List Str) :
    hunkRemovals ([] :: rest) = hunkRemovals rest := by
  simp [hunkRemovals, strStartsWith]

theorem hunkAdditions_cons_nil (rest : List Str) :
    hunkAdditions ([] :: rest) = hunkAdditions rest := by
  simp [hunkAdditions, strStartsWith]

theorem hunkRemovals_cons_other (c : Char) (a : Str) (rest : List Str)
    (h : c ≠ '-') : hunkRemovals ((c :: a) :: rest) = hunkRemovals rest := by
  simp [hunkRemovals, strStartsWith, Ne.symm h]

theorem hunkAdditions_cons_other (c : Char) (a : Str) (rest : List Str)
    (h : c ≠ '+') : hunkAdditions ((c :: a) :: rest) = hunkAdditions rest := by
  simp [hunkAdditions, strStartsWith, Ne.symm h]

theorem invertLine_other (c : Char) (r : Str) (h1 : c ≠ '+') (h2 : c ≠ '-') :
    invertLine (c :: r) = c :: r := by
  unfold invertLine
  split
  · rename_i heq
    injection heq with hc _
    exact absurd hc h1
  · rename_i heq
    injection heq with hc _
    exact absurd hc h2
  · rfl

theorem hunkRemovals_invert (L : List Str) :
    hunkRemovals (L.map invertLine) = hunkAdditions L := by
  induction L with
  | nil => rfl
  | cons l rest ih =>
    cases l with
    | nil =>
      rw [List.map_cons]
      show hunkRemovals ([] :: rest.map invertLine) = _
      rw [hunkRemovals_cons_nil, hunkAdditions_cons_nil, ih]
    | cons c r =>
      rw [List.map_cons]
      by_cases h1 : c = '+'
      · subst h1
        rw [show invertLine ('+' :: r) = '-' :: r from rfl]
        rw [hunkRemovals_cons_minus, hunkAdditions_cons_plus, ih]
      · by_cases h2 : c = '-'
        · subst h2
          rw [show invertLine ('-' :: r) = '+' :: r from rfl]
          rw [hunkRemovals_cons_other '+' r _ (by decide),
            hunkAdditions_cons_other '-' r _ (by decide), ih]
        · rw [invertLine_other c r h1 h2]
          rw [hunkRemovals_cons_other c r _ h2, hunkAdditions_cons_other c r _ h1, ih]

theorem hunkAdditions_invert (L : List Str) :
    hunkAdditions (L.map invertLine) = hunkRemovals L := by
  induction L with
  | nil => rfl
  | cons l rest ih =>
    cases l with
    | nil =>
      rw [List.map_cons]
      show hunkAdditions ([] :: rest.map invertLine) = _
      rw [hunkAdditions_cons_nil, hunkRemovals_cons_nil, ih]
    | cons c r =>
      rw [List.map_cons]
      by_cases h1 : c = '+'
      · subst h1
        rw [show invertLine ('+' :: r) = '-' :: r from rfl]
        rw [hunkAdditions_cons_other '-' r _ (by decide),
          hunkRemovals_cons_other '+' r _ (by decide), ih]
      · by_cases h2 : c = '-'
        · subst h2
          rw [show invertLine ('-' :: r) = '+' :: r from rfl]
          rw [hunkAdditions_cons_plus, hunkRemovals_cons_minus, ih]
        · rw [invertLine_other c r h1 h2]
          rw [hunkAdditions_cons_other c r _ h1, hunkRemovals_cons_other c r _ h2, ih]

/-- C7 (amended): for every content and valid in-bounds single-hunk diff
whose removal lines match the content at the hunk's position and whose
addition lines are newline-free, applying the diff and then the
semantically-inverse diff returns the original content, provided the
intermediate patched line list is nonempty (see the counterexample for
the delete-everything corner). -/
theorem C7_theorem (X : Str) (xs : List Str) (s : Nat) (L : List Str)
    (oldP : Str) (newP : Option Str) (oc ns nl : Nat)
    (hsplit : splitNl X = xs)
    (hs1 : 1 ≤ s)
    (hbound : s - 1 + (hunkRemovals L).length ≤ xs.length)
    (hmatch : hunkRemovals L = (xs.drop (s - 1)).take (hunkRemovals L).length)
    (hnlA : ∀ l ∈ hunkAdditions L, '\n' ∉ l)
    (hne : xs.take (s - 1) ++ hunkAdditions L ++
      xs.drop (s - 1 + (hunkRemovals L).length) ≠ []) :
    (applyUnifiedPatch
      (applyUnifiedPatch X ⟨oldP, newP, [⟨s, oc, ns, nl, L⟩]⟩).content
      (invertPatch ⟨oldP, newP, [⟨s, oc, ns, nl, L⟩]⟩)).content = X := by
  set R := hunkRemovals L with hR
  set A := hunkAdditions L with hA
  have hstep1 : applyUnifiedPatch X ⟨oldP, newP, [⟨s, oc, ns, nl, L⟩]⟩ =
      ⟨joinNl (xs.take (s - 1) ++ A ++ xs.drop (s - 1 + R.length)), A.length, R.length⟩ := by
    unfold applyUnifiedPatch
    simp only [List.foldl]
    rw [hsplit]
    rw [applyHunkStep_eq ⟨xs, 0, 0, 0⟩ ⟨s, oc, ns, nl, L⟩ (s - 1)
      (by push_cast; omega) (by simpa using hbound)]
    simp
  rw [hstep1]
  have hyne : ∀ l ∈ xs.take (s - 1) ++ A ++ xs.drop (s - 1 + R.length), '\n' ∉ l := by
    intro l hl
    rcases List.mem_append.mp hl with hl2 | hl2
    · rcases List.mem_append.mp hl2 with hl3 | hl3
      · exact mem_splitNl_no_newline X l (hsplit ▸ List.take_subset _ _ hl3)
      · exact hnlA l hl3
    · exact mem_splitNl_no_newline X l (hsplit ▸ List.drop_subset _ _ hl2)
  have hresplit : splitNl (joinNl (xs.take (s - 1) ++ A ++ xs.drop (s - 1 + R.length))) =
      xs.take (s - 1) ++ A ++ xs.drop (s - 1 + R.length) :=
    splitNl_joinNl _ hne hyne
  have hpre : (xs.take (s - 1)).length = s - 1 := by
    rw [List.length_take]; omega
  have hinv : invertPatch ⟨oldP, newP, [⟨s, oc, ns, nl, L⟩]⟩ =
      ⟨oldP, newP, [⟨s, oc, ns, nl, L.map invertLine⟩]⟩ := rfl
  rw [hinv]
  unfold applyUnifiedPatch
  simp only [List.foldl]
  rw [hresplit]
  rw [applyHunkStep_eq ⟨xs.take (s - 1) ++ A ++ xs.drop (s - 1 + R.length), 0, 0, 0⟩
    ⟨s, oc, ns, nl, L.map invertLine⟩ (s - 1)
    (by push_cast; omega)
    (by
      simp only [hunkRemovals_invert, ← hA, List.length_append, List.length_take,
        List.length_drop]
      omega)]
  simp only [hunkRemovals_invert, hunkAdditions_invert, ← hA, ← hR]
  have htake2 : ((xs.take (s - 1) ++ A ++ xs.drop (s - 1 + R.length)).take (s - 1)) =
      xs.take (s - 1) := by
    rw [List.append_assoc, List.take_append_eq_append_take, hpre]
    simp
  have hdrop2 : ((xs.take (s - 1) ++ A ++ xs.drop (s - 1 + R.length)).drop
      (s - 1 + A.length)) = xs.drop (s - 1 + R.length) := by
    rw [List.append_assoc]
    have hlen2 : (xs.take (s - 1) ++ A).length = s - 1 + A.length := by
      simp [hpre]
    rw [← List.append_assoc, ← hlen2, List.drop_left]
  rw [htake2, hdrop2]
  have hrestore : xs.take (s - 1) ++ R ++ xs.drop (s - 1 + R.length) = xs := by
    obtain ⟨n, hn⟩ : ∃ n, R.length = n := ⟨R.length, rfl⟩
    rw [hn] at hmatch ⊢
    have hdd : List.drop (s - 1 + n) xs = List.drop n (List.drop (s - 1) xs) :=
      (List.drop_drop n (s - 1) xs).symm
    rw [hdd, List.append_assoc, hmatch, List.take_append_drop,
      List.take_append_drop]
  rw [hrestore]
  have hjx : joinNl xs = X := by rw [← hsplit]; exact joinNl_splitNl X
  exact hjx

/-- C7 witness: the single-hunk replacement of Scenario A round-trips. -/
theorem C7_witness :
    (applyUnifiedPatch
      (applyUnifiedPatch (("line1\nline2\nline3").data)
        ⟨("f".data), some ("f".data),
          [⟨2, 1, 2, 1, [("-line2".data), ("+new".data)]⟩]⟩).content
      (invertPatch ⟨("f".data), some ("f".data),
        [⟨2, 1, 2, 1, [("-line2".data), ("+new".data)]⟩]⟩)).content =
    (("line1\nline2\nline3").data) :=
  C7_theorem (("line1\nline2\nline3").data)
    [("line1".data), ("line2".data), ("line3".data)] 2
    [("-line2".data), ("+new".data)] ("f".data) (some ("f".data)) 1 2 1
    (by decide) (by decide) (by decide) (by decide) (by decide) (by decide)


/-! ## Count and filesystem-preservation lemmas (for C3) -/

theorem applyFold_counts (hunks : List Hunk) :
    ∀ (st : ApplyState),
      (hunks.foldl applyHunkStep st).linesAdded =
        st.linesAdded + countPlus hunks ∧
      (hunks.foldl applyHunkStep st).linesRemoved =
        st.linesRemoved + countMinus hunks := by
  induction hunks with
  | nil => intro st; simp [countPlus, countMinus]
  | cons h rest ih =>
    intro st
    obtain ⟨ha, hr⟩ := ih (applyHunkStep st h)
    constructor
    · rw [List.foldl_cons, ha]
      show (st.linesAdded + (hunkAdditions h.lines).length) + _ = _
      have hl : (hunkAdditions h.lines).length =
          (h.lines.filter (fun l => strStartsWith ['+'] l)).length := by
        simp [hunkAdditions]
      rw [hl]
      simp [countPlus]
      omega
    · rw [List.foldl_cons, hr]
      show (st.linesRemoved + (hunkRemovals h.lines).length) + _ = _
      have hl : (hunkRemovals h.lines).length =
          (h.lines.filter (fun l => strStartsWith ['-'] l)).length := by
        simp [hunkRemovals]
      rw [hl]
      simp [countMinus]
      omega

theorem applyUnifiedPatch_counts (orig : Str) (p : PatchData) :
    (applyUnifiedPatch orig p).linesAdded = countPlus p.hunks ∧
    (applyUnifiedPatch orig p).linesRemoved = countMinus p.hunks := by
  unfold applyUnifiedPatch
  simp only
  obtain ⟨ha, hr⟩ := applyFold_counts p.hunks ⟨splitNl orig, 0, 0, 0⟩
  exact ⟨by rw [ha]; simp, by rw [hr]; simp⟩


theorem anyCongr {l : List α} {p q : α → Bool}
    (h : ∀ x ∈ l, p x = q x) : l.any p = l.any q := by
  induction l with
  | nil => rfl
  | cons a rest ih =>
    simp only [List.any_cons]
    rw [h a (by simp), ih (fun x hx => h x (by simp [hx]))]

theorem isFile_writeFile (fs : FS) (p : CPath) (c : Str) (q : CPath)
    (hp : fs.isFile p = true) :
    (fs.writeFile p c).isFile q = fs.isFile q := by
  unfold FS.isFile at hp ⊢
  unfold FS.writeFile setAssoc
  simp only
  have hany : fs.files.any (fun e => e.1 == p) = true := by
    rw [List.any_eq_true]
    rw [List.find?_isSome] at hp
    exact hp
  rw [if_pos hany]
  rw [Bool.eq_iff_iff, List.find?_isSome, List.find?_isSome]
  constructor
  · rintro ⟨x, hx, hq⟩
    rw [List.mem_map] at hx
    obtain ⟨e, he, rfl⟩ := hx
    refine ⟨e, he, ?_⟩
    by_cases hep : (e.1 == p) = true
    · rw [if_pos hep] at hq
      have : e.1 = p := eq_of_beq hep
      rw [this]
      exact hq
    · rw [if_neg hep] at hq
      exact hq
  · rintro ⟨e, he, hq⟩
    refine ⟨(if e.1 == p then (p, c) else e), List.mem_map_of_mem _ he, ?_⟩
    by_cases hep : (e.1 == p) = true
    · rw [if_pos hep]
      show ((p, c).1 == q) = true
      rw [show p = e.1 from (eq_of_beq hep).symm]
      exact hq
    · rw [if_neg hep]
      exact hq

theorem isDir_writeFile (fs : FS) (p : CPath) (c : Str) (q : CPath) :
    (fs.writeFile p c).isDir q = fs.isDir q := rfl

theorem existsSync_writeFile (fs : FS) (p : CPath) (c : Str) (q : CPath)
    (hp : fs.isFile p = true) :
    (fs.writeFile p c).existsSync q = fs.existsSync q := by
  unfold FS.existsSync
  rw [isFile_writeFile fs p c q hp, isDir_writeFile]

theorem isTargetAllowedByList_writeFile (t : CPath) (allowed : List CPath)
    (fs : FS) (p : CPath) (c : Str) (hp : fs.isFile p = true) :
    isTargetAllowedByList t allowed (fs.writeFile p c) =
      isTargetAllowedByList t allowed fs := by
  unfold isTargetAllowedByList
  by_cases he : allowed.isEmpty = true
  · rw [if_pos he, if_pos he]
  · rw [if_neg he, if_neg he]
    refine anyCongr ?_
    intro a _
    rw [existsSync_writeFile fs p c a hp, isDir_writeFile]

theorem resolvePatchTarget_writeFile (f : Str) (root : CPath)
    (allowed : List CPath) (fs : FS) (p : CPath) (c : Str)
    (hp : fs.isFile p = true) :
    resolvePatchTarget f root allowed (fs.writeFile p c) =
      resolvePatchTarget f root allowed fs := by
  unfold resolvePatchTarget
  simp only [isTargetAllowedByList_writeFile _ _ _ _ _ hp]

theorem readFile_of_isFile (fs : FS) (p : CPath) (hp : fs.isFile p = true) :
    ∃ c, fs.readFile p = some c := by
  unfold FS.isFile at hp
  unfold FS.readFile
  obtain ⟨e, he⟩ := Option.isSome_iff_exists.mp hp
  exact ⟨e.2, by rw [he]; rfl⟩

theorem gitDiffLoop_totals (root : CPath) (allowed : List CPath) :
    ∀ (patches : List PatchData) (fsC fsP : FS)
      (s1 s2 : GdSummary) (f1 f2 : List FileResult),
      (∀ p ∈ patches, effFilePath p ≠ [] →
        ∃ r, resolvePatchTarget (effFilePath p) root allowed fsC = Except.ok r ∧
          fsC.isFile r = true) →
      (∀ p ∈ patches, effFilePath p ≠ [] →
        ∃ r, resolvePatchTarget (effFilePath p) root allowed fsP = Except.ok r ∧
          fsP.isFile r = true) →
      s1.totalLinesAdded = s2.totalLinesAdded →
      s1.totalLinesRemoved = s2.totalLinesRemoved →
      ∃ sC fC fsC2 sP fP,
        gitDiffLoop root allowed true patches s1 f1 fsC = (Sum.inr (sC, fC), fsC2) ∧
        gitDiffLoop root allowed false patches s2 f2 fsP = (Sum.inr (sP, fP), fsP) ∧
        sC.totalLinesAdded = sP.totalLinesAdded ∧
        sC.totalLinesRemoved = sP.totalLinesRemoved := by
  intro patches
  induction patches with
  | nil =>
    intro fsC fsP s1 s2 f1 f2 _ _ h1 h2
    exact ⟨s1, f1, fsC, s2, f2, rfl, rfl, h1, h2⟩
  | cons q rest ih =>
    intro fsC fsP s1 s2 f1 f2 hC hP h1 h2
    by_cases hfp : effFilePath q = []
    · simp only [gitDiffLoop, if_pos hfp]
      exact ih fsC fsP s1 s2 f1 f2
        (fun p hp => hC p (List.mem_cons_of_mem _ hp))
        (fun p hp => hP p (List.mem_cons_of_mem _ hp)) h1 h2
    · obtain ⟨rC, hresC, hfileC⟩ := hC q (by simp) hfp
      obtain ⟨rP, hresP, hfileP⟩ := hP q (by simp) hfp
      have hexC : fsC.existsSync rC = true := by
        unfold FS.existsSync
        rw [hfileC]
        simp
      obtain ⟨orig, horig⟩ := readFile_of_isFile fsC rC hfileC
      simp only [gitDiffLoop, if_neg hfp, hresC, hresP, hexC, Bool.not_true,
        Bool.false_eq_true, if_false, horig]
      obtain ⟨hcount1, hcount2⟩ := applyUnifiedPatch_counts orig q
      obtain ⟨sC, fC, fsC2, sP, fP, hloopC, hloopP, he1, he2⟩ :=
        ih (fsC.writeFile rC (applyUnifiedPatch orig q).content) fsP
          { s1 with
            filesChanged := s1.filesChanged ++ [effFilePath q]
            totalHunks := s1.totalHunks + q.hunks.length
            totalLinesAdded := s1.totalLinesAdded + (applyUnifiedPatch orig q).linesAdded
            totalLinesRemoved := s1.totalLinesRemoved + (applyUnifiedPatch orig q).linesRemoved }
          { s2 with
            filesChanged := s2.filesChanged ++ [effFilePath q]
            totalHunks := s2.totalHunks + q.hunks.length
            totalLinesAdded := s2.totalLinesAdded + countPlus q.hunks
            totalLinesRemoved := s2.totalLinesRemoved + countMinus q.hunks }
          (f1 ++ [⟨effFilePath q, "modified", some (applyUnifiedPatch orig q).linesAdded,
            some (applyUnifiedPatch orig q).linesRemoved⟩])
          (f2 ++ [⟨effFilePath q, "dry-run", none, none⟩])
          (by
            intro p hp hne
            obtain ⟨r, hres, hfile⟩ := hC p (List.mem_cons_of_mem _ hp) hne
            exact ⟨r, by rw [resolvePatchTarget_writeFile _ _ _ _ _ _ hfileC]; exact hres,
              by rw [isFile_writeFile _ _ _ _ hfileC]; exact hfile⟩)
          (fun p hp => hP p (List.mem_cons_of_mem _ hp))
          (by simp [hcount1, h1]) (by simp [hcount2, h2])
      exact ⟨sC, fC, fsC2, sP, fP, hloopC, hloopP, he1, he2⟩

/-- C3 (amended): preview and commit mode report identical
`totalLinesAdded`/`totalLinesRemoved` for every diff all of whose
effective targets resolve successfully and already exist as files (the
new-file creation path is where the counterexample lives). -/
theorem C3_theorem (patchStr : Str) (root : CPath) (allowed : List CPath)
    (fs : FS) (hpne : parseUnifiedDiff patchStr ≠ [])
    (hex : ∀ p ∈ parseUnifiedDiff patchStr, effFilePath p ≠ [] →
      (match resolvePatchTarget (effFilePath p) root allowed fs with
       | Except.ok r => fs.isFile r
       | Except.error _ => false) = true) :
    ∃ sC fC fsC sP fP,
      handleGitDiff patchStr root allowed true fs = (GdResp.ok true sC fC, fsC) ∧
      handleGitDiff patchStr root allowed false fs = (GdResp.ok false sP fP, fs) ∧
      sC.totalLinesAdded = sP.totalLinesAdded ∧
      sC.totalLinesRemoved = sP.totalLinesRemoved := by
  have hex' : ∀ p ∈ parseUnifiedDiff patchStr, effFilePath p ≠ [] →
      ∃ r, resolvePatchTarget (effFilePath p) root allowed fs = Except.ok r ∧
        fs.isFile r = true := by
    intro p hp hne
    have hm := hex p hp hne
    cases hres : resolvePatchTarget (effFilePath p) root allowed fs with
    | error m => rw [hres] at hm; cases hm
    | ok r => rw [hres] at hm; exact ⟨r, rfl, hm⟩
  unfold handleGitDiff
  have hlen : ¬ (parseUnifiedDiff patchStr).length = 0 := by
    simpa [List.length_eq_zero] using hpne
  simp only [if_neg hlen]
  obtain ⟨sC, fC, fsC2, sP, fP, hloopC, hloopP, he1, he2⟩ :=
    gitDiffLoop_totals root allowed (parseUnifiedDiff patchStr) fs fs
      ⟨[], 0, 0, 0⟩ ⟨[], 0, 0, 0⟩ [] [] hex' hex' rfl rfl
  rw [hloopC, hloopP]
  exact ⟨sC, fC, fsC2, sP, fP, rfl, rfl, he1, he2⟩

/-- C3 witness: preview and commit of a concrete in-place modification
agree on the totals. -/
theorem C3_witness :
    ∃ sC fC fsC sP fP,
      handleGitDiff exDiffMod wsRoot [] true exFsMod = (GdResp.ok true sC fC, fsC) ∧
      handleGitDiff exDiffMod wsRoot [] false exFsMod = (GdResp.ok false sP fP, exFsMod) ∧
      sC.totalLinesAdded = sP.totalLinesAdded ∧
      sC.totalLinesRemoved = sP.totalLinesRemoved :=
  C3_theorem exDiffMod wsRoot [] exFsMod (by decide) (by decide)


/-! ## JSON add/remove round-trip and silent-remove lemmas (C6, C8) -/

/-- Setting an index to its own current value is the identity. -/
theorem set_getD_self (l : List α) : ∀ (i : Nat) (d : α), i < l.length →
    l.set i (l.getD i d) = l := by
  induction l with
  | nil => intro i d h; simp at h
  | cons a rest ih =>
    intro i d h
    cases i with
    | zero => simp [List.getD]
    | succ n =>
      show a :: rest.set n ((rest.get? n).getD d) = a :: rest
      exact congrArg (a :: ·) (ih n d (by simpa using h))

/-- Cons equation for `updateField`. -/
theorem updateField_cons (e : String × JVal) (rest : List (String × JVal))
    (k : String) (v : JVal) :
    updateField (e :: rest) k v =
      if e.1 == k then (k, v) :: rest else e :: updateField rest k v := rfl

/-- Cons equation for `lookupField`. -/
theorem lookupField_cons (e : String × JVal) (rest : List (String × JVal))
    (k : String) :
    lookupField (e :: rest) k =
      if e.1 == k then some e.2 else lookupField rest k := by
  unfold lookupField
  by_cases hek : (e.1 == k) = true
  · simp [List.find?, hek]
  · simp [List.find?, hek]

/-- Cons equation for `eraseField`. -/
theorem eraseField_cons (e : String × JVal) (rest : List (String × JVal))
    (k : String) :
    eraseField (e :: rest) k =
      if e.1 == k then eraseField rest k else e :: eraseField rest k := by
  unfold eraseField
  by_cases hek : (e.1 == k) = true
  · simp [List.filter, hek]
  · simp [List.filter, hek]

/-- An updated field reads back the written value. -/
theorem lookupField_updateField_self (fields : List (String × JVal))
    (k : String) (v : JVal) :
    lookupField (updateField fields k v) k = some v := by
  induction fields with
  | nil => simp [lookupField, updateField, List.find?]
  | cons e rest ih =>
    rw [updateField_cons]
    by_cases hek : (e.1 == k) = true
    · rw [if_pos hek, lookupField_cons]
      simp
    · rw [if_neg hek, lookupField_cons, if_neg hek]
      exact ih

/-- Writing a key twice keeps only the second write. -/
theorem updateField_updateField (fields : List (String × JVal)) (k : String)
    (v1 v2 : JVal) :
    updateField (updateField fields k v1) k v2 = updateField fields k v2 := by
  induction fields with
  | nil => simp [updateField]
  | cons e rest ih =>
    rw [updateField_cons, updateField_cons]
    by_cases hek : (e.1 == k) = true
    · rw [if_pos hek, if_pos hek, updateField_cons, if_pos (by simp)]
    · rw [if_neg hek, if_neg hek, updateField_cons, if_neg hek, ih]

/-- Rewriting a key with its current value is the identity. -/
theorem updateField_self (fields : List (String × JVal)) (k : String)
    (v : JVal) (h : lookupField fields k = some v) :
    updateField fields k v = fields := by
  induction fields with
  | nil => simp [lookupField, List.find?] at h
  | cons e rest ih =>
    rw [lookupField_cons] at h
    rw [updateField_cons]
    by_cases hek : (e.1 == k) = true
    · rw [if_pos hek] at h
      injection h with h
      rw [if_pos hek, ← h, show k = e.1 from (eq_of_beq hek).symm]
    · rw [if_neg hek] at h
      rw [if_neg hek, ih h]

/-- Erasing a freshly added (previously absent) key restores the field list. -/
theorem eraseField_updateField_of_none (fields : List (String × JVal))
    (k : String) (v : JVal) (h : lookupField fields k = none) :
    eraseField (updateField fields k v) k = fields := by
  induction fields with
  | nil => simp [updateField, eraseField, List.filter]
  | cons e rest ih =>
    rw [lookupField_cons] at h
    by_cases hek : (e.1 == k) = true
    · rw [if_pos hek] at h
      cases h
    · rw [if_neg hek] at h
      rw [updateField_cons, if_neg hek, eraseField_cons, if_neg hek, ih h]

/-- Single-segment equation for `setNestedValue`. -/
theorem setNestedValue_single (cur : JVal) (k : String) (v : JVal) :
    setNestedValue cur [k] v = assignKey cur k v := rfl

/-- Single-segment equation for `removeNestedValue`. -/
theorem removeNestedValue_single (cur : JVal) (k : String) :
    removeNestedValue cur [k] = deleteKey cur k := rfl

/-- Object-step equation for `setNestedValue`. -/
theorem setNestedValue_obj_cons (fields : List (String × JVal)) (s t0 : String)
    (ts : List String) (v : JVal) :
    setNestedValue (.obj fields) (s :: t0 :: ts) v =
      match setNestedValue ((lookupField fields s).getD (.obj [])) (t0 :: ts) v with
      | none => none
      | some child' => some (.obj (updateField fields s child')) := rfl

/-- Array-step equation for `setNestedValue`. -/
theorem setNestedValue_arr_cons (a : List JVal) (s t0 : String)
    (ts : List String) (v : JVal) :
    setNestedValue (.arr a) (s :: t0 :: ts) v =
      match canonicalIndex s with
      | some i =>
        if h : i < a.length then
          match setNestedValue (a.get ⟨i, h⟩) (t0 :: ts) v with
          | none => none
          | some child' => some (.arr (a.set i child'))
        else if i = a.length then
          match setNestedValue (.obj []) (t0 :: ts) v with
          | none => none
          | some child' => some (.arr (a ++ [child']))
        else none
      | none => none := rfl

/-- Two-or-more-segment equation for `removeNestedValue`. -/
theorem removeNestedValue_cons2 (cur : JVal) (s t0 : String) (ts : List String) :
    removeNestedValue cur (s :: t0 :: ts) =
      match readProp cur s with
      | none => none
      | some child =>
        if isFalsy child then some cur
        else
          match removeNestedValue child (t0 :: ts) with
          | none => none
          | some child' => some (writeBack cur s child') := rfl

/-- Any value `walk` steps into is an object or an array. -/
theorem walk_container (x : JVal) (y : String) (ys : List String) (z : JVal)
    (h : walk x (y :: ys) = some z) :
    (∃ f, x = JVal.obj f) ∨ (∃ a, x = JVal.arr a) := by
  cases x with
  | obj f => exact Or.inl ⟨f, rfl⟩
  | arr a => exact Or.inr ⟨a, rfl⟩
  | null => simp [walk] at h
  | undef => simp [walk] at h
  | boolV b => simp [walk] at h
  | num n => simp [walk] at h
  | str s2 => simp [walk] at h

/-- Reading back an in-range `set`. -/
theorem getD_set_self (a : List JVal) (i : Nat) (c d : JVal)
    (h : i < a.length) : (a.set i c).getD i d = c := by
  rw [List.getD_eq_getElem?_getD, List.getElem?_set_self h]
  rfl

/-- Core of C6: when the walk to the parent succeeds, the parent is an
object and the final key is absent, an add followed by a remove of the
same segment list restores the document; the patched document keeps the
constructor of the original. -/
theorem addRemove_roundtrip : ∀ (init : List String) (d : JVal)
    (o : List (String × JVal)) (k : String) (v : JVal),
    walk d init = some (JVal.obj o) → lookupField o k = none →
    ∃ d', setNestedValue d (init ++ [k]) v = some d' ∧
      removeNestedValue d' (init ++ [k]) = some d ∧
      (∀ f, d = JVal.obj f → ∃ f', d' = JVal.obj f') ∧
      (∀ a, d = JVal.arr a → ∃ a', d' = JVal.arr a')
  | [], d, o, k, v => by
    intro hw hk
    have hd : d = JVal.obj o := by simpa [walk] using hw
    subst hd
    refine ⟨.obj (updateField o k v), rfl, ?_, fun f _ => ⟨_, rfl⟩,
      fun a ha => JVal.noConfusion ha⟩
    rw [List.nil_append, removeNestedValue_single]
    show some (JVal.obj (eraseField (updateField o k v) k)) = _
    rw [eraseField_updateField_of_none o k v hk]
  | s :: init', d, o, k, v => by
    intro hw hk
    obtain ⟨t0, ts, ht⟩ : ∃ t0 ts, init' ++ [k] = t0 :: ts := by
      cases init' with
      | nil => exact ⟨k, [], rfl⟩
      | cons a b => exact ⟨a, b ++ [k], rfl⟩
    cases d with
    | obj fields =>
      simp only [walk] at hw
      cases hc : lookupField fields s with
      | none => rw [hc] at hw; cases hw
      | some child =>
        rw [hc] at hw
        obtain ⟨child', hset, hrem, hobjP, harrP⟩ :=
          addRemove_roundtrip init' child o k v hw hk
        have hcont : (∃ f, child = JVal.obj f) ∨ (∃ a, child = JVal.arr a) := by
          cases init' with
          | nil => exact Or.inl ⟨o, by simpa [walk] using hw⟩
          | cons y ys => exact walk_container child y ys _ hw
        have hnf : isFalsy child' = false := by
          rcases hcont with ⟨f, rfl⟩ | ⟨a, rfl⟩
          · obtain ⟨f', rfl⟩ := hobjP f rfl; rfl
          · obtain ⟨a', rfl⟩ := harrP a rfl; rfl
        rw [ht] at hset hrem
        refine ⟨.obj (updateField fields s child'), ?_, ?_, fun f _ => ⟨_, rfl⟩,
          fun a ha => JVal.noConfusion ha⟩
        · show setNestedValue (.obj fields) (s :: (init' ++ [k])) v = _
          rw [ht, setNestedValue_obj_cons, hc]
          simp only [Option.getD_some]
          rw [hset]
        · show removeNestedValue (.obj (updateField fields s child'))
            (s :: (init' ++ [k])) = _
          rw [ht, removeNestedValue_cons2]
          have hrp : readProp (JVal.obj (updateField fields s child')) s =
              some child' := by
            simp [readProp, lookupField_updateField_self]
          rw [hrp]
          simp only [hnf, Bool.false_eq_true, if_false]
          rw [hrem]
          show some (JVal.obj (updateField (updateField fields s child') s child)) = _
          rw [updateField_updateField, updateField_self fields s child hc]
    | arr a =>
      simp only [walk] at hw
      cases hidx : canonicalIndex s with
      | none => rw [hidx] at hw; cases hw
      | some i =>
        rw [hidx] at hw
        cases hai : a[i]? with
        | none =>
          simp only [hai] at hw
          exact Option.noConfusion hw
        | some child =>
          simp only [hai] at hw
          have hlt : i < a.length := by
            by_contra hge
            rw [List.getElem?_eq_none (by omega)] at hai
            cases hai
          have hget : a.get ⟨i, hlt⟩ = child := by
            have := List.getElem?_eq_getElem hlt
            rw [this] at hai
            injection hai
          obtain ⟨child', hset, hrem, hobjP, harrP⟩ :=
            addRemove_roundtrip init' child o k v hw hk
          have hcont : (∃ f, child = JVal.obj f) ∨ (∃ a2, child = JVal.arr a2) := by
            cases init' with
            | nil => exact Or.inl ⟨o, by simpa [walk] using hw⟩
            | cons y ys => exact walk_container child y ys _ hw
          have hnf : isFalsy child' = false := by
            rcases hcont with ⟨f, rfl⟩ | ⟨a2, rfl⟩
            · obtain ⟨f', rfl⟩ := hobjP f rfl; rfl
            · obtain ⟨a2', rfl⟩ := harrP a2 rfl; rfl
          rw [ht] at hset hrem
          refine ⟨.arr (a.set i child'), ?_, ?_, fun f hf => JVal.noConfusion hf,
            fun a2 _ => ⟨_, rfl⟩⟩
          · show setNestedValue (.arr a) (s :: (init' ++ [k])) v = _
            rw [ht, setNestedValue_arr_cons, hidx]
            show (if h : i < a.length then
                match setNestedValue (a.get ⟨i, h⟩) (t0 :: ts) v with
                | none => none
                | some child' => some (JVal.arr (a.set i child'))
              else if i = a.length then
                match setNestedValue (JVal.obj []) (t0 :: ts) v with
                | none => none
                | some child' => some (JVal.arr (a ++ [child']))
              else none) = _
            rw [dif_pos hlt, hget, hset]
          · show removeNestedValue (.arr (a.set i child'))
              (s :: (init' ++ [k])) = _
            rw [ht, removeNestedValue_cons2]
            have hrp : readProp (JVal.arr (a.set i child')) s = some child' := by
              simp only [readProp, hidx]
              rw [getD_set_self a i child' _ hlt]
            rw [hrp]
            simp only [hnf, Bool.false_eq_true, if_false]
            rw [hrem]
            show some (match canonicalIndex s with
              | some j => JVal.arr ((a.set i child').set j child)
              | none => JVal.arr (a.set i child')) = _
            rw [hidx]
            show some (JVal.arr ((a.set i child').set i child)) = _
            rw [List.set_set]
            have : a.set i child = a := by
              rw [show child = a.getD i JVal.undef from by
                rw [List.getD_eq_getElem?_getD, hai]; rfl]
              exact set_getD_self a i JVal.undef hlt
            rw [this]
    | null => simp [walk] at hw
    | undef => simp [walk] at hw
    | boolV b => simp [walk] at hw
    | num n => simp [walk] at hw
    | str s2 => simp [walk] at hw

/-- C6 (amended): an "add" followed by a "remove" of the same JSON
pointer restores the original document whenever every parent container
of the path already exists along the pointer, the final parent is an
object, and the final key is absent before the add. -/
theorem C6_theorem (d : JVal) (p : String) (init : List String) (k : String)
    (v : JVal) (o : List (String × JVal))
    (hsegs : splitSegments p = init ++ [k])
    (hw : walk d init = some (JVal.obj o))
    (hk : lookupField o k = none) :
    applyOpsToDoc d [⟨"add", p, v⟩, ⟨"remove", p, JVal.undef⟩] = some d := by
  obtain ⟨d', hset, hrem, _, _⟩ := addRemove_roundtrip init d o k v hw hk
  show (match setNestedValue d (splitSegments p) v with
    | none => none
    | some d2 => applyOpsToDoc d2 [⟨"remove", p, JVal.undef⟩]) = some d
  rw [hsegs, hset]
  show (match removeNestedValue d' (splitSegments p) with
    | none => none
    | some d2 => applyOpsToDoc d2 []) = some d
  rw [hsegs, hrem]
  rfl

/-- C6 witness: adding then removing `/a` on `\x7b"x":1\x7d` restores the
document. -/
theorem C6_witness :
    applyOpsToDoc (JVal.obj [("x", JVal.num 1)])
      [⟨"add", "/a", JVal.boolV true⟩, ⟨"remove", "/a", JVal.undef⟩] =
      some (JVal.obj [("x", JVal.num 1)]) :=
  C6_theorem (JVal.obj [("x", JVal.num 1)]) "/a" [] "a" (JVal.boolV true)
    [("x", JVal.num 1)] (by decide) rfl (by decide)

/-- Erasing an absent key is the identity. -/
theorem eraseField_of_none (fields : List (String × JVal)) (k : String)
    (h : lookupField fields k = none) : eraseField fields k = fields := by
  induction fields with
  | nil => rfl
  | cons e rest ih =>
    rw [lookupField_cons] at h
    rw [eraseField_cons]
    by_cases hek : (e.1 == k) = true
    · rw [if_pos hek] at h; cases h
    · rw [if_neg hek] at h
      rw [if_neg hek, ih h]

/-- Splicing one element at a nonnegative start at or past the end
changes nothing. -/
theorem jsSplice_out_of_range (l : List JVal) (i : Int) (h0 : 0 ≤ i)
    (hlen : l.length ≤ i.toNat) : jsSplice l i 1 [] = l := by
  simp only [jsSplice]
  rw [if_neg (not_lt.mpr h0), min_eq_right hlen]
  simp

/-- Deleting an absent object key succeeds and changes nothing. -/
theorem deleteKey_noop_obj (o : List (String × JVal)) (k : String)
    (h : lookupField o k = none) :
    deleteKey (JVal.obj o) k = some (JVal.obj o) := by
  show some (JVal.obj (eraseField o k)) = _
  rw [eraseField_of_none o k h]

/-- Deleting a nonnegative out-of-range array index succeeds and changes
nothing. -/
theorem deleteKey_noop_arr (a : List JVal) (k : String) (i : Int)
    (hp : (parseIntJS k).getD 0 = i) (h0 : 0 ≤ i)
    (hlen : a.length ≤ i.toNat) :
    deleteKey (JVal.arr a) k = some (JVal.arr a) := by
  show some (JVal.arr (jsSplice a ((parseIntJS k).getD 0) 1 [])) = _
  rw [hp, jsSplice_out_of_range a i h0 hlen]

/-- A falsy child at an intermediate segment makes `removeNestedValue`
return the document unchanged (`if (!current) return`). -/
theorem removeNested_falsy (cur : JVal) (k r0 : String)
    (rest : List String) (child : JVal)
    (hrp : readProp cur k = some child) (hf : isFalsy child = true) :
    removeNestedValue cur (k :: r0 :: rest) = some cur := by
  rw [removeNestedValue_cons2, hrp]
  show (if isFalsy child = true then some cur
    else match removeNestedValue child (r0 :: rest) with
    | none => none
    | some child' => some (writeBack cur k child')) = some cur
  rw [if_pos hf]

/-- A no-op remove below a walkable prefix lifts to a no-op remove of the
full path. -/
theorem removeNested_lift : ∀ (init : List String) (d cur : JVal)
    (suf : List String), suf ≠ [] →
    walk d init = some cur →
    ((∃ f, cur = JVal.obj f) ∨ (∃ a, cur = JVal.arr a)) →
    removeNestedValue cur suf = some cur →
    removeNestedValue d (init ++ suf) = some d
  | [], d, cur, suf => by
    intro _ hw _ hr
    have hd : d = cur := by simpa [walk] using hw
    subst hd
    simpa using hr
  | j :: init', d, cur, suf => by
    intro hsuf hw hcont hr
    obtain ⟨t0, ts, ht⟩ : ∃ t0 ts, init' ++ suf = t0 :: ts := by
      cases hi : init' ++ suf with
      | nil =>
        cases suf with
        | nil => exact absurd rfl hsuf
        | cons a b => simp at hi
      | cons a b => exact ⟨a, b, rfl⟩
    cases d with
    | obj fields =>
      simp only [walk] at hw
      cases hc : lookupField fields j with
      | none => rw [hc] at hw; cases hw
      | some child =>
        rw [hc] at hw
        have hchildcont : (∃ f, child = JVal.obj f) ∨
            (∃ a, child = JVal.arr a) := by
          cases init' with
          | nil =>
            have hcc : child = cur := by simpa [walk] using hw
            subst hcc; exact hcont
          | cons y ys => exact walk_container child y ys _ hw
        have hnf : isFalsy child = false := by
          rcases hchildcont with ⟨f, rfl⟩ | ⟨a, rfl⟩ <;> rfl
        have ih := removeNested_lift init' child cur suf hsuf hw hcont hr
        rw [ht] at ih
        show removeNestedValue (JVal.obj fields) (j :: (init' ++ suf)) = _
        rw [ht, removeNestedValue_cons2]
        have hrp : readProp (JVal.obj fields) j = some child := by
          simp [readProp, hc]
        rw [hrp]
        simp only [hnf, Bool.false_eq_true, if_false]
        rw [ih]
        show some (JVal.obj (updateField fields j child)) = _
        rw [updateField_self fields j child hc]
    | arr a =>
      simp only [walk] at hw
      cases hidx : canonicalIndex j with
      | none => rw [hidx] at hw; cases hw
      | some i =>
        rw [hidx] at hw
        cases hai : a[i]? with
        | none =>
          simp only [hai] at hw
          exact Option.noConfusion hw
        | some child =>
          simp only [hai] at hw
          have hlt : i < a.length := by
            by_contra hge
            rw [List.getElem?_eq_none (by omega)] at hai
            cases hai
          have hchildcont : (∃ f, child = JVal.obj f) ∨
              (∃ a2, child = JVal.arr a2) := by
            cases init' with
            | nil =>
              have hcc : child = cur := by simpa [walk] using hw
              subst hcc; exact hcont
            | cons y ys => exact walk_container child y ys _ hw
          have hnf : isFalsy child = false := by
            rcases hchildcont with ⟨f, rfl⟩ | ⟨a2, rfl⟩ <;> rfl
          have ih := removeNested_lift init' child cur suf hsuf hw hcont hr
          rw [ht] at ih
          show removeNestedValue (JVal.arr a) (j :: (init' ++ suf)) = _
          rw [ht, removeNestedValue_cons2]
          have hrp : readProp (JVal.arr a) j = some child := by
            simp only [readProp, hidx]
            rw [List.getD_eq_getElem?_getD, hai]
            rfl
          rw [hrp]
          simp only [hnf, Bool.false_eq_true, if_false]
          rw [ih]
          show some (match canonicalIndex j with
            | some j2 => JVal.arr (a.set j2 child)
            | none => JVal.arr a) = _
          rw [hidx]
          show some (JVal.arr (a.set i child)) = _
          have hset : a.set i child = a := by
            rw [show child = a.getD i JVal.undef from by
              rw [List.getD_eq_getElem?_getD, hai]; rfl]
            exact set_getD_self a i JVal.undef hlt
          rw [hset]
    | null => simp [walk] at hw
    | undef => simp [walk] at hw
    | boolV b => simp [walk] at hw
    | num n => simp [walk] at hw
    | str s2 => simp [walk] at hw

/-- C8 (amended): removing a non-existent path is a silent success that
leaves the document unchanged when the missing part is a missing final
object key, a nonnegative out-of-range final array index, or a
falsy/absent intermediate segment; but a remove whose final segment
addresses an existing array with a non-numeric segment splices index 0,
and a negative index counts from the end, mutating the array while still
succeeding. -/
theorem C8_theorem :
    (∀ (d : JVal) (p : String) (init : List String) (k : String)
       (o : List (String × JVal)),
       splitSegments p = init ++ [k] →
       walk d init = some (JVal.obj o) →
       lookupField o k = none →
       applyOpsToDoc d [⟨"remove", p, JVal.undef⟩] = some d) ∧
    (∀ (d : JVal) (p : String) (init : List String) (k : String)
       (a : List JVal) (i : Int),
       splitSegments p = init ++ [k] →
       walk d init = some (JVal.arr a) →
       (parseIntJS k).getD 0 = i → 0 ≤ i → a.length ≤ i.toNat →
       applyOpsToDoc d [⟨"remove", p, JVal.undef⟩] = some d) ∧
    (∀ (d : JVal) (p : String) (init : List String) (k r0 : String)
       (rest : List String) (cur child : JVal),
       splitSegments p = init ++ (k :: r0 :: rest) →
       walk d init = some cur →
       ((∃ f, cur = JVal.obj f) ∨ (∃ a, cur = JVal.arr a)) →
       readProp cur k = some child → isFalsy child = true →
       applyOpsToDoc d [⟨"remove", p, JVal.undef⟩] = some d) ∧
    applyOpsToDoc (JVal.arr [JVal.num 1, JVal.num 2])
      [⟨"remove", "/x", JVal.undef⟩] = some (JVal.arr [JVal.num 2]) ∧
    applyOpsToDoc (JVal.arr [JVal.num 1, JVal.num 2])
      [⟨"remove", "/-1", JVal.undef⟩] = some (JVal.arr [JVal.num 1]) := by
  refine ⟨?_, ?_, ?_, by decide, by decide⟩
  · intro d p init k o hsegs hw hk
    have hnoop := removeNested_lift init d (JVal.obj o) [k] (by simp) hw
      (Or.inl ⟨o, rfl⟩)
      (by rw [removeNestedValue_single]; exact deleteKey_noop_obj o k hk)
    show (match removeNestedValue d (splitSegments p) with
      | none => none
      | some d2 => applyOpsToDoc d2 []) = some d
    rw [hsegs, hnoop]
    rfl
  · intro d p init k a i hsegs hw hp h0 hlen
    have hnoop := removeNested_lift init d (JVal.arr a) [k] (by simp) hw
      (Or.inr ⟨a, rfl⟩)
      (by rw [removeNestedValue_single]; exact deleteKey_noop_arr a k i hp h0 hlen)
    show (match removeNestedValue d (splitSegments p) with
      | none => none
      | some d2 => applyOpsToDoc d2 []) = some d
    rw [hsegs, hnoop]
    rfl
  · intro d p init k r0 rest cur child hsegs hw hcont hrp hf
    have hnoop := removeNested_lift init d cur (k :: r0 :: rest) (by simp) hw
      hcont (removeNested_falsy cur k r0 rest child hrp hf)
    show (match removeNestedValue d (splitSegments p) with
      | none => none
      | some d2 => applyOpsToDoc d2 []) = some d
    rw [hsegs, hnoop]
    rfl

/-- C8 witness: removing the absent key `/a` from `\x7b"x":1\x7d` succeeds and
leaves the document unchanged. -/
theorem C8_witness :
    applyOpsToDoc (JVal.obj [("x", JVal.num 1)])
      [⟨"remove", "/a", JVal.undef⟩] = some (JVal.obj [("x", JVal.num 1)]) :=
  C8_theorem.1 (JVal.obj [("x", JVal.num 1)]) "/a" [] "a" [("x", JVal.num 1)]
    (by decide) rfl (by decide)


end PinsrEditor
